import Mathlib

/-!
Verification of the shape-extraction / shape-algebra core of `scripts/getKeys.mjs`.

The script parses JSON documents and computes "key trees": objects whose
values are either `null` (a leaf: the key is present but carries no further
modelled structure) or nested key trees.  The core functions embedded here are
`isObject`, `enumerateKeyTree` / `enumerateKeyTreeHelper` (shape extraction),
`intersectKeys` / `intersectKeysHelper`, `unionKeys` / `unionKeysHelper`, and
the N-way folds `findIntersectingKeys` / `findUnionKeys` (with file reading and
`JSON.parse` — external collaborators — stripped away: the folds here take the
already-parsed documents).

JavaScript platform semantics used by the source are modelled explicitly:
`Object.keys` / `Object.entries` (index keys for strings and arrays, a
`TypeError` on `null`), property access (with `undefined` modelled as `null`,
which in this program behaves identically: both fail `isObject` and both make
`Object.keys` throw a `TypeError`), and `Set` construction, `Set.intersection`
and `Set.union` (insertion-ordered, deduplicating; `intersection` iterates the
smaller set, `union` keeps the receiver's elements first).  Non-index own
properties of strings and arrays (such as `length`, which is not enumerable and
therefore never produced by `Object.keys`) are not modelled.  The numeric
reordering JavaScript applies to integer-like object keys is not modelled
either: object keys are kept in entry order, which only affects the order of
keys in results, never membership.
-/

/-- A parsed JSON value, as produced by `JSON.parse`. -/
inductive JsonValue where
  | null : JsonValue
  | bool (b : Bool) : JsonValue
  | num (n : Int) : JsonValue
  | str (s : String) : JsonValue
  | arr (elems : List JsonValue) : JsonValue
  | obj (entries : List (String × JsonValue)) : JsonValue

/-- Embeds `isObject` from `getKeys.mjs`:
`typeof o === 'object' && !Array.isArray(o) && o !== null`.
Only plain objects satisfy all three conjuncts. -/
def isObject : JsonValue → Bool
  | .obj _ => true
  | _ => false

/-- The list of index keys `"0", "1", ..., toString (n-1)` that `Object.keys`
produces for a string or array of length `n`. -/
def indexKeys (n : Nat) : List String :=
  (List.range n).map toString

/-- The message of the `TypeError` thrown by `Object.keys(null)` (and
`Object.keys(undefined)`). -/
def typeErrorMsg : String :=
  "TypeError: Cannot convert undefined or null to object"

/-- Models `Object.keys`.  For an object: its own enumerable keys; for a string
or array: the index keys; for a number or boolean: no keys; for `null` (or
`undefined`, modelled as `null`): a thrown `TypeError`. -/
def jsKeys : JsonValue → Except String (List String)
  | .null => .error typeErrorMsg
  | .bool _ => .ok []
  | .num _ => .ok []
  | .str s => .ok (indexKeys s.length)
  | .arr xs => .ok (indexKeys xs.length)
  | .obj es => .ok (es.map Prod.fst)

/-- Interprets a key string as an index below `n`, the way property access on a
string or array of length `n` does. -/
def parseIndex (n : Nat) (k : String) : Option Nat :=
  (List.range n).find? (fun i => toString i == k)

/-- Models property access `v[k]`; `none` models `undefined`. -/
def getProp : JsonValue → String → Option JsonValue
  | .obj es, k => List.lookup k es
  | .str s, k =>
      (parseIndex s.length k).bind fun i =>
        (s.toList.get? i).map fun c => JsonValue.str (String.mk [c])
  | .arr xs, k => (parseIndex xs.length k).bind fun i => xs.get? i
  | _, _ => none

/-- Property access with `undefined` collapsed to `null`: in this program the
two behave identically (`isObject` rejects both and `Object.keys` throws the
same `TypeError` on both). -/
def getPropD (v : JsonValue) (k : String) : JsonValue :=
  (getProp v k).getD .null

/-- Deduplication keeping the first occurrence of each element, as
`new Set(list)` does: later duplicates of the head are filtered out of the
deduplicated tail. -/
def firstDedup : List String → List String
  | [] => []
  | x :: rest => x :: (firstDedup rest).filter (fun y => !(x == y))

/-- Models `new Set(a).intersection(new Set(b))` as a list of its elements in
iteration order: the smaller set is iterated and filtered by membership in the
other. -/
def setIntersection (a b : List String) : List String :=
  let da := firstDedup a
  let db := firstDedup b
  if da.length ≤ db.length then da.filter (fun x => db.contains x)
  else db.filter (fun x => da.contains x)

/-- Models `new Set(a).union(new Set(b))` as a list of its elements in
iteration order: the receiver's elements first, then the other's new ones. -/
def setUnion (a b : List String) : List String :=
  let da := firstDedup a
  let db := firstDedup b
  da ++ db.filter (fun x => !(da.contains x))

/-- A successful association-list lookup finds an entry of the list. -/
theorem lookup_mem {k : String} {es : List (String × JsonValue)} {w : JsonValue}
    (h : List.lookup k es = some w) : (k, w) ∈ es := by
  induction es with
  | nil => simp [List.lookup] at h
  | cons e rest ih =>
      obtain ⟨k2, v2⟩ := e
      by_cases hk : (k == k2) = true
      · have hkk : k = k2 := by simpa using hk
        subst hkk
        simp [List.lookup, hk] at h
        subst h
        exact List.mem_cons_self _ _
      · simp [List.lookup, hk] at h
        exact List.mem_cons_of_mem _ (ih h)

/-- A successful index lookup finds an element of the list. -/
theorem get?_mem {xs : List JsonValue} {i : Nat} {w : JsonValue}
    (h : xs.get? i = some w) : w ∈ xs := by
  induction xs generalizing i with
  | nil => simp [List.get?] at h
  | cons x rest ih =>
      cases i with
      | zero => simp [List.get?] at h; simp [h]
      | succ n => exact List.mem_cons_of_mem _ (ih h)

/-- The value a property access returns out of an object or array is
structurally smaller than the container, provided it is itself an object
(the only case in which the source recurses into it). -/
theorem sizeOf_getPropD_lt (v : JsonValue) (k : String)
    (h : isObject (getPropD v k) = true) : sizeOf (getPropD v k) < sizeOf v := by
  cases v with
  | null => simp [getPropD, getProp, isObject] at h
  | bool b => simp [getPropD, getProp, isObject] at h
  | num n => simp [getPropD, getProp, isObject] at h
  | str s =>
      exfalso
      simp only [getPropD, getProp] at h
      cases hp : (parseIndex s.length k).bind
          (fun i => (s.toList.get? i).map fun c => JsonValue.str (String.mk [c])) with
      | none => rw [hp] at h; simp [isObject] at h
      | some w =>
          rw [hp] at h
          obtain ⟨i, hi, hw⟩ := Option.bind_eq_some.mp hp
          obtain ⟨c, hc, hcw⟩ := Option.map_eq_some'.mp hw
          subst hcw
          simp [isObject] at h
  | arr xs =>
      simp only [getPropD, getProp] at h ⊢
      cases hp : (parseIndex xs.length k).bind (fun i => xs.get? i) with
      | none => rw [hp] at h; simp [isObject] at h
      | some w =>
          obtain ⟨i, hi, hw⟩ := Option.bind_eq_some.mp hp
          have hmem := get?_mem hw
          have hlt := List.sizeOf_lt_of_mem hmem
          simp only [Option.getD_some]
          have : sizeOf (JsonValue.arr xs) = 1 + sizeOf xs := by simp
          omega
  | obj es =>
      simp only [getPropD, getProp] at h ⊢
      cases hp : List.lookup k es with
      | none => rw [hp] at h; simp [isObject] at h
      | some w =>
          have hmem := lookup_mem hp
          have h1 := List.sizeOf_lt_of_mem hmem
          have h2 : sizeOf w < sizeOf (k, w) := by simp
          simp only [Option.getD_some]
          have : sizeOf (JsonValue.obj es) = 1 + sizeOf es := by simp
          omega

mutual

/-- Embeds `enumerateKeyTreeHelper(o, tree)` from `getKeys.mjs`, returning the
list of entries the helper stores into `tree`.  The source iterates
`Object.entries(o)` and, per entry, stores `null` for a non-object value and a
recursively filled subtree for an object value.  `Object.entries` on a string
yields index/character pairs whose values are single-character strings — never
objects — so that case records a `Leaf` per index directly; on an array it
yields index/element pairs (`ektElems`); on `null` it throws a `TypeError`. -/
def enumerateKeyTreeHelper : JsonValue → Except String (List (String × JsonValue))
  | .null => .error typeErrorMsg
  | .bool _ => .ok []
  | .num _ => .ok []
  | .str s => .ok ((indexKeys s.length).map (fun k => (k, JsonValue.null)))
  | .arr xs => ektElems 0 xs
  | .obj es => ektEntries es
termination_by v => sizeOf v
decreasing_by
  all_goals simp

/-- The `for (const [key, val] of Object.entries(o))` loop of
`enumerateKeyTreeHelper` over an object's entries. -/
def ektEntries : List (String × JsonValue) → Except String (List (String × JsonValue))
  | [] => .ok []
  | (k, v) :: rest =>
      if isObject v = true then
        match enumerateKeyTreeHelper v with
        | .error e => .error e
        | .ok sub =>
            match ektEntries rest with
            | .error e => .error e
            | .ok tail => .ok ((k, JsonValue.obj sub) :: tail)
      else
        match ektEntries rest with
        | .error e => .error e
        | .ok tail => .ok ((k, JsonValue.null) :: tail)
termination_by es => sizeOf es
decreasing_by
  all_goals simp
  all_goals omega

/-- The same loop over an array's entries, whose keys are the indices. -/
def ektElems (i : Nat) : List JsonValue → Except String (List (String × JsonValue))
  | [] => .ok []
  | v :: rest =>
      if isObject v = true then
        match enumerateKeyTreeHelper v with
        | .error e => .error e
        | .ok sub =>
            match ektElems (i + 1) rest with
            | .error e => .error e
            | .ok tail => .ok ((toString i, JsonValue.obj sub) :: tail)
      else
        match ektElems (i + 1) rest with
        | .error e => .error e
        | .ok tail => .ok ((toString i, JsonValue.null) :: tail)
termination_by xs => sizeOf xs
decreasing_by
  all_goals simp
  all_goals omega

end

/-- Embeds `enumerateKeyTree(o)`: builds a fresh tree and fills it with the
helper. -/
def enumerateKeyTree (o : JsonValue) : Except String JsonValue :=
  match enumerateKeyTreeHelper o with
  | .error e => .error e
  | .ok entries => .ok (.obj entries)

mutual

/-- Embeds `intersectKeysHelper(first, second, resultantTree)` from
`getKeys.mjs`, returning the tree it builds: take the `Set` intersection of
`Object.keys(first)` and `Object.keys(second)`; for each common key, store
`null` when `first`'s value there is not an object, and otherwise recurse into
`first[prop]` and `second[prop]`.  (The source's `if (intersect.size !== 0)`
guard is a no-op — iterating an empty set does nothing — and is dropped.) -/
def intersectKeysHelper (first second : JsonValue) : Except String JsonValue :=
  match jsKeys first with
  | .error e => .error e
  | .ok fk =>
      match jsKeys second with
      | .error e => .error e
      | .ok sk =>
          match interProps first second (setIntersection fk sk) with
          | .error e => .error e
          | .ok entries => .ok (.obj entries)
termination_by (sizeOf first, 1, 0)

/-- The `for (const prop of intersect.values())` loop of
`intersectKeysHelper`. -/
def interProps (first second : JsonValue) :
    List String → Except String (List (String × JsonValue))
  | [] => .ok []
  | p :: rest =>
      if h : isObject (getPropD first p) = true then
        match intersectKeysHelper (getPropD first p) (getPropD second p) with
        | .error e => .error e
        | .ok node =>
            match interProps first second rest with
            | .error e => .error e
            | .ok tail => .ok ((p, node) :: tail)
      else
        match interProps first second rest with
        | .error e => .error e
        | .ok tail => .ok ((p, JsonValue.null) :: tail)
termination_by props => (sizeOf first, 0, props.length)
decreasing_by
  all_goals first
    | exact Prod.Lex.left _ _ (sizeOf_getPropD_lt _ _ (by assumption))
    | exact Prod.Lex.right _ (Prod.Lex.right _ (by simp))
    | exact Prod.Lex.right _ (Prod.Lex.left _ _ (by omega))

end

mutual

/-- Embeds `unionKeysHelper(first, second, resultantTree)` from `getKeys.mjs`,
returning the tree it builds: take the `Set` union of `Object.keys(first)` and
`Object.keys(second)`; for each key, store `null` when either side's value
there is not an object (a missing key reads as `undefined`, which is not an
object), and otherwise recurse into both sides' values.  (The source's
`if (union.size !== 0)` guard is a no-op and is dropped.) -/
def unionKeysHelper (first second : JsonValue) : Except String JsonValue :=
  match jsKeys first with
  | .error e => .error e
  | .ok fk =>
      match jsKeys second with
      | .error e => .error e
      | .ok sk =>
          match unionProps first second (setUnion fk sk) with
          | .error e => .error e
          | .ok entries => .ok (.obj entries)
termination_by (sizeOf first, 1, 0)

/-- The `for (const prop of union.values())` loop of `unionKeysHelper`. -/
def unionProps (first second : JsonValue) :
    List String → Except String (List (String × JsonValue))
  | [] => .ok []
  | p :: rest =>
      if h : (!isObject (getPropD first p) || !isObject (getPropD second p)) = true then
        match unionProps first second rest with
        | .error e => .error e
        | .ok tail => .ok ((p, JsonValue.null) :: tail)
      else
        match unionKeysHelper (getPropD first p) (getPropD second p) with
        | .error e => .error e
        | .ok node =>
            match unionProps first second rest with
            | .error e => .error e
            | .ok tail => .ok ((p, node) :: tail)
termination_by props => (sizeOf first, 0, props.length)
decreasing_by
  all_goals first
    | exact Prod.Lex.left _ _ (sizeOf_getPropD_lt _ _ (by
        simp only [Bool.or_eq_true, Bool.not_eq_true', not_or, Bool.not_eq_false] at h
        exact h.1))
    | exact Prod.Lex.right _ (Prod.Lex.right _ (by simp))
    | exact Prod.Lex.right _ (Prod.Lex.left _ _ (by omega))

end

/-- Embeds `intersectKeys(first, second)`: builds a fresh result and fills it
with the helper. -/
def intersectKeys (first second : JsonValue) : Except String JsonValue :=
  intersectKeysHelper first second

/-- Embeds `unionKeys(first, second)`: builds a fresh result and fills it with
the helper. -/
def unionKeys (first second : JsonValue) : Except String JsonValue :=
  unionKeysHelper first second

/-- The `for (let i = 2; ...)` accumulation loop shared by
`findIntersectingKeys`: repeatedly `resultTree = intersectKeys(resultTree,
jsonOther)` over the remaining documents; a thrown error aborts the loop. -/
def intersectFold (acc : JsonValue) : List JsonValue → Except String JsonValue
  | [] => .ok acc
  | d :: rest =>
      match intersectKeys acc d with
      | .error e => .error e
      | .ok t => intersectFold t rest

/-- The corresponding loop of `findUnionKeys`. -/
def unionFold (acc : JsonValue) : List JsonValue → Except String JsonValue
  | [] => .ok acc
  | d :: rest =>
      match unionKeys acc d with
      | .error e => .error e
      | .ok t => unionFold t rest

/-- Embeds `findIntersectingKeys(jsonFiles)` with file reading and `JSON.parse`
(external collaborators) stripped away: the argument is the list of parsed
documents in file order.  Zero documents throw `Error('Array is empty.')`; one
document is passed to `enumerateKeyTree`; two or more are combined by
`intersectKeys` on the raw parsed documents, left to right. -/
def findIntersectingKeys : List JsonValue → Except String JsonValue
  | [] => .error "Array is empty."
  | [d] => enumerateKeyTree d
  | d1 :: d2 :: rest =>
      match intersectKeys d1 d2 with
      | .error e => .error e
      | .ok t => intersectFold t rest

/-- Embeds `findUnionKeys(jsonFiles)`, likewise over the parsed documents. -/
def findUnionKeys : List JsonValue → Except String JsonValue
  | [] => .error "Array is empty."
  | [d] => enumerateKeyTree d
  | d1 :: d2 :: rest =>
      match unionKeys d1 d2 with
      | .error e => .error e
      | .ok t => unionFold t rest

/-- Membership is preserved by `Set`-style deduplication. -/
theorem mem_firstDedup {x : String} {l : List String} : x ∈ firstDedup l ↔ x ∈ l := by
  induction l with
  | nil => simp [firstDedup]
  | cons a rest ih =>
      simp only [firstDedup, List.mem_cons, List.mem_filter]
      constructor
      · rintro (rfl | ⟨hx, _⟩)
        · exact Or.inl rfl
        · exact Or.inr (ih.mp hx)
      · rintro (rfl | hx)
        · exact Or.inl rfl
        · by_cases hax : x = a
          · exact Or.inl hax
          · exact Or.inr ⟨ih.mpr hx, by simp [hax]; exact fun h => hax h.symm⟩

/-- `Set`-style deduplication yields a duplicate-free list. -/
theorem nodup_firstDedup (l : List String) : (firstDedup l).Nodup := by
  induction l with
  | nil => simp [firstDedup]
  | cons a rest ih =>
      simp only [firstDedup, List.nodup_cons]
      refine ⟨fun hmem => ?_, List.Nodup.filter _ ih⟩
      have := (List.mem_filter.mp hmem).2
      simp at this

/-- Key membership in the modelled `Set.intersection`. -/
theorem mem_setIntersection {x : String} {a b : List String} :
    x ∈ setIntersection a b ↔ x ∈ a ∧ x ∈ b := by
  simp only [setIntersection]
  by_cases hl : (firstDedup a).length ≤ (firstDedup b).length
  · simp only [if_pos hl, List.mem_filter, List.elem_iff, mem_firstDedup]
    all_goals tauto
  · simp only [if_neg hl, List.mem_filter, List.elem_iff, mem_firstDedup]
    all_goals tauto

/-- The modelled `Set.intersection` is duplicate-free. -/
theorem nodup_setIntersection (a b : List String) : (setIntersection a b).Nodup := by
  simp only [setIntersection]
  by_cases hl : (firstDedup a).length ≤ (firstDedup b).length
  · simpa [if_pos hl] using List.Nodup.filter _ (nodup_firstDedup a)
  · simpa [if_neg hl] using List.Nodup.filter _ (nodup_firstDedup b)

/-- Key membership in the modelled `Set.union`. -/
theorem mem_setUnion {x : String} {a b : List String} :
    x ∈ setUnion a b ↔ x ∈ a ∨ x ∈ b := by
  simp only [setUnion, List.mem_append, List.mem_filter, mem_firstDedup,
    Bool.not_eq_true', ← Bool.not_eq_true, List.elem_iff]
  constructor
  · rintro (h | ⟨h, _⟩)
    · exact Or.inl h
    · exact Or.inr h
  · rintro (h | h)
    · exact Or.inl h
    · by_cases ha : x ∈ a
      · exact Or.inl ha
      · exact Or.inr ⟨h, by simpa [mem_firstDedup] using ha⟩

/-- The modelled `Set.union` is duplicate-free. -/
theorem nodup_setUnion (a b : List String) : (setUnion a b).Nodup := by
  simp only [setUnion]
  refine List.Nodup.append (nodup_firstDedup a) (List.Nodup.filter _ (nodup_firstDedup b)) ?_
  intro x hx hmem
  have := (List.mem_filter.mp hmem).2
  simp only [Bool.not_eq_true', ← Bool.not_eq_true, List.elem_iff] at this
  exact this hx

/-- A lookup succeeds exactly when the key occurs among the entry keys. -/
theorem lookup_isSome_iff {k : String} {es : List (String × JsonValue)} :
    (List.lookup k es).isSome = true ↔ k ∈ es.map Prod.fst := by
  induction es with
  | nil => simp [List.lookup]
  | cons e rest ih =>
      obtain ⟨k2, v2⟩ := e
      by_cases hk : (k == k2) = true
      · have : k = k2 := by simpa using hk
        subst this
        simp [List.lookup]
      · simp only [List.lookup, hk, List.map_cons, List.mem_cons]
        rw [ih]
        have : ¬(k = k2) := by simpa using hk
        simp [this]

/-- A lookup fails exactly when the key does not occur among the entry keys. -/
theorem lookup_eq_none_iff {k : String} {es : List (String × JsonValue)} :
    List.lookup k es = none ↔ k ∉ es.map Prod.fst := by
  rw [← lookup_isSome_iff]
  cases List.lookup k es <;> simp

/-- Property access on a modelled object is association-list lookup. -/
theorem getPropD_obj (es : List (String × JsonValue)) (k : String) :
    getPropD (.obj es) k = (List.lookup k es).getD .null := rfl

/-- An object read is itself an object exactly when the key maps to an
object entry. -/
theorem isObject_getPropD_obj_iff {es : List (String × JsonValue)} {k : String} :
    isObject (getPropD (.obj es) k) = true ↔
      ∃ ta, List.lookup k es = some (.obj ta) := by
  rw [getPropD_obj]
  cases h : List.lookup k es with
  | none => simp [isObject]
  | some v => cases v <;> simp [isObject]

/-- Bounded-rank workhorse for totality of `unionKeysHelper` on objects: the
union of two objects never throws, because recursion only enters values that
are themselves objects. -/
theorem union_ok_aux : ∀ n, ∀ first second : JsonValue, sizeOf first < n →
    isObject first = true → isObject second = true →
    (∀ props, ∃ tl, unionProps first second props = .ok tl) ∧
    (∃ l, unionKeysHelper first second = .ok (.obj l)) := by
  intro n
  induction n with
  | zero => intro f s hn _ _; omega
  | succ n ih =>
      intro f s hn h1 h2
      have hprops : ∀ props, ∃ tl, unionProps f s props = .ok tl := by
        intro props
        induction props with
        | nil => exact ⟨[], by simp only [unionProps]⟩
        | cons p rest ihp =>
            obtain ⟨tl, htl⟩ := ihp
            by_cases hc : (!isObject (getPropD f p) || !isObject (getPropD s p)) = true
            · refine ⟨(p, JsonValue.null) :: tl, ?_⟩
              simp only [unionProps]
              rw [dif_pos hc, htl]
            · have hobj : isObject (getPropD f p) = true ∧ isObject (getPropD s p) = true := by
                simp only [Bool.or_eq_true, Bool.not_eq_true', not_or, Bool.not_eq_false] at hc
                exact hc
              have hlt := sizeOf_getPropD_lt f p hobj.1
              obtain ⟨-, l, hl⟩ := ih (getPropD f p) (getPropD s p) (by omega) hobj.1 hobj.2
              refine ⟨(p, JsonValue.obj l) :: tl, ?_⟩
              simp only [unionProps]
              rw [dif_neg hc, hl, htl]
      refine ⟨hprops, ?_⟩
      cases f with
      | obj a =>
          cases s with
          | obj b =>
              obtain ⟨tl, htl⟩ := hprops (setUnion (a.map Prod.fst) (b.map Prod.fst))
              refine ⟨tl, ?_⟩
              simp only [unionKeysHelper, jsKeys]
              rw [htl]
          | _ => simp [isObject] at h2
      | _ => simp [isObject] at h1

/-- The union of two objects always succeeds and returns an object. -/
theorem unionKeysHelper_obj_ok (a b : List (String × JsonValue)) :
    ∃ l, unionKeysHelper (.obj a) (.obj b) = .ok (.obj l) :=
  (union_ok_aux (sizeOf (JsonValue.obj a) + 1) (.obj a) (.obj b)
    (Nat.lt_succ_self _) (by simp [isObject]) (by simp [isObject])).2

/-- The entry list the union of two objects produces; total by
`unionKeysHelper_obj_ok`, with an unreachable default. -/
def unionEntries (a b : List (String × JsonValue)) : List (String × JsonValue) :=
  match unionKeysHelper (.obj a) (.obj b) with
  | .ok (.obj l) => l
  | _ => []

/-- `unionKeysHelper` on two objects computes exactly `unionEntries`. -/
theorem unionKeysHelper_eq_unionEntries (a b : List (String × JsonValue)) :
    unionKeysHelper (.obj a) (.obj b) = .ok (.obj (unionEntries a b)) := by
  obtain ⟨l, hl⟩ := unionKeysHelper_obj_ok a b
  simp [unionEntries, hl]

/-- The keys of the entry list built by the union loop are exactly the props
iterated, in order. -/
theorem unionProps_map_fst {f s : JsonValue} {props : List String}
    {l : List (String × JsonValue)} (h : unionProps f s props = .ok l) :
    l.map Prod.fst = props := by
  induction props generalizing l with
  | nil =>
      simp only [unionProps, Except.ok.injEq] at h
      subst h
      simp
  | cons p rest ihp =>
      simp only [unionProps] at h
      by_cases hc : (!isObject (getPropD f p) || !isObject (getPropD s p)) = true
      · rw [dif_pos hc] at h
        cases hrest : unionProps f s rest with
        | error e => rw [hrest] at h; simp at h
        | ok tl =>
            rw [hrest] at h
            simp only [Except.ok.injEq] at h
            subst h
            simp [ihp hrest]
      · rw [dif_neg hc] at h
        cases hnode : unionKeysHelper (getPropD f p) (getPropD s p) with
        | error e => rw [hnode] at h; simp at h
        | ok node =>
            rw [hnode] at h
            cases hrest : unionProps f s rest with
            | error e => rw [hrest] at h; simp at h
            | ok tl =>
                rw [hrest] at h
                simp only [Except.ok.injEq] at h
                subst h
                simp [ihp hrest]

/-- The keys of the union of two objects are the `Set.union` of the two key
lists. -/
theorem unionEntries_map_fst (a b : List (String × JsonValue)) :
    (unionEntries a b).map Prod.fst = setUnion (a.map Prod.fst) (b.map Prod.fst) := by
  have heq := unionKeysHelper_eq_unionEntries a b
  simp only [unionKeysHelper, jsKeys] at heq
  cases hu : unionProps (.obj a) (.obj b) (setUnion (a.map Prod.fst) (b.map Prod.fst)) with
  | error e => rw [hu] at heq; simp at heq
  | ok tl =>
      rw [hu] at heq
      simp only [Except.ok.injEq, JsonValue.obj.injEq] at heq
      rw [← heq]
      exact unionProps_map_fst hu

/-- Key membership in the union of two objects. -/
theorem mem_unionEntries_keys {a b : List (String × JsonValue)} {k : String} :
    k ∈ (unionEntries a b).map Prod.fst ↔
      k ∈ a.map Prod.fst ∨ k ∈ b.map Prod.fst := by
  rw [unionEntries_map_fst]
  exact mem_setUnion

/-- What the union loop stores for each iterated key: `null` when either
side's value is not an object, and the recursive union otherwise. -/
theorem unionProps_lookup {f s : JsonValue} {props : List String}
    {l : List (String × JsonValue)} (hnd : props.Nodup)
    (h : unionProps f s props = .ok l) {k : String} (hk : k ∈ props) :
    ((!isObject (getPropD f k) || !isObject (getPropD s k)) = true ∧
      List.lookup k l = some .null) ∨
    ((!isObject (getPropD f k) || !isObject (getPropD s k)) = false ∧
      ∃ node, unionKeysHelper (getPropD f k) (getPropD s k) = .ok node ∧
        List.lookup k l = some node) := by
  induction props generalizing l with
  | nil => simp at hk
  | cons p rest ihp =>
      obtain ⟨hp, hndrest⟩ := List.nodup_cons.mp hnd
      simp only [unionProps] at h
      rcases List.mem_cons.mp hk with rfl | hkrest
      · by_cases hc : (!isObject (getPropD f k) || !isObject (getPropD s k)) = true
        · rw [dif_pos hc] at h
          cases hrest : unionProps f s rest with
          | error e => rw [hrest] at h; simp at h
          | ok tl =>
              rw [hrest] at h
              simp only [Except.ok.injEq] at h
              subst h
              exact Or.inl ⟨hc, by simp [List.lookup]⟩
        · rw [dif_neg hc] at h
          cases hnode : unionKeysHelper (getPropD f k) (getPropD s k) with
          | error e => rw [hnode] at h; simp at h
          | ok node =>
              rw [hnode] at h
              cases hrest : unionProps f s rest with
              | error e => rw [hrest] at h; simp at h
              | ok tl =>
                  rw [hrest] at h
                  simp only [Except.ok.injEq] at h
                  subst h
                  refine Or.inr ⟨by simpa using hc, node, ?_, ?_⟩
                  · rfl
                  · simp [List.lookup]
      · have hkp : ¬(k = p) := fun hkp => hp (hkp ▸ hkrest)
        by_cases hc : (!isObject (getPropD f p) || !isObject (getPropD s p)) = true
        · rw [dif_pos hc] at h
          cases hrest : unionProps f s rest with
          | error e => rw [hrest] at h; simp at h
          | ok tl =>
              rw [hrest] at h
              simp only [Except.ok.injEq] at h
              subst h
              have hres := ihp hndrest hrest hkrest
              have hbeq : (k == p) = false := by simp [hkp]
              simpa [List.lookup, hbeq] using hres
        · rw [dif_neg hc] at h
          cases hnode : unionKeysHelper (getPropD f p) (getPropD s p) with
          | error e => rw [hnode] at h; simp at h
          | ok node =>
              rw [hnode] at h
              cases hrest : unionProps f s rest with
              | error e => rw [hrest] at h; simp at h
              | ok tl =>
                  rw [hrest] at h
                  simp only [Except.ok.injEq] at h
                  subst h
                  have hres := ihp hndrest hrest hkrest
                  have hbeq : (k == p) = false := by simp [hkp]
                  simpa [List.lookup, hbeq] using hres

/-- The loop invocation hidden inside a successful union of two objects. -/
theorem unionProps_of_helper (a b : List (String × JsonValue)) :
    unionProps (.obj a) (.obj b) (setUnion (a.map Prod.fst) (b.map Prod.fst)) =
      .ok (unionEntries a b) := by
  have heq := unionKeysHelper_eq_unionEntries a b
  simp only [unionKeysHelper, jsKeys] at heq
  cases hu : unionProps (.obj a) (.obj b) (setUnion (a.map Prod.fst) (b.map Prod.fst)) with
  | error e => rw [hu] at heq; simp at heq
  | ok tl =>
      rw [hu] at heq
      simp only [Except.ok.injEq, JsonValue.obj.injEq] at heq
      rw [heq]

/-- Keys outside both objects are absent from their union. -/
theorem unionEntries_lookup_none {a b : List (String × JsonValue)} {k : String}
    (ha : k ∉ a.map Prod.fst) (hb : k ∉ b.map Prod.fst) :
    List.lookup k (unionEntries a b) = none := by
  rw [lookup_eq_none_iff, unionEntries_map_fst]
  rw [mem_setUnion]
  tauto

/-- Per-key contents of the union of two objects: a key of either side maps to
`null` unless both sides hold objects there, in which case it maps to the
recursive union. -/
theorem unionEntries_lookup {a b : List (String × JsonValue)} {k : String}
    (hk : k ∈ a.map Prod.fst ∨ k ∈ b.map Prod.fst) :
    ((isObject (getPropD (.obj a) k) = false ∨ isObject (getPropD (.obj b) k) = false) ∧
      List.lookup k (unionEntries a b) = some .null) ∨
    (∃ ta tb, List.lookup k a = some (.obj ta) ∧ List.lookup k b = some (.obj tb) ∧
      List.lookup k (unionEntries a b) = some (.obj (unionEntries ta tb))) := by
  have hprops := unionProps_of_helper a b
  have hmem : k ∈ setUnion (a.map Prod.fst) (b.map Prod.fst) := mem_setUnion.mpr hk
  have hcase := unionProps_lookup (nodup_setUnion _ _) hprops hmem
  rcases hcase with ⟨hc, hlook⟩ | ⟨hc, node, hnode, hlook⟩
  · left
    constructor
    · simpa using hc
    · exact hlook
  · right
    have hc2 : isObject (getPropD (.obj a) k) = true ∧
        isObject (getPropD (.obj b) k) = true := by
      simpa using hc
    obtain ⟨ta, hta⟩ := isObject_getPropD_obj_iff.mp hc2.1
    obtain ⟨tb, htb⟩ := isObject_getPropD_obj_iff.mp hc2.2
    refine ⟨ta, tb, hta, htb, ?_⟩
    have hgpa : getPropD (.obj a) k = .obj ta := by rw [getPropD_obj, hta]; rfl
    have hgpb : getPropD (.obj b) k = .obj tb := by rw [getPropD_obj, htb]; rfl
    rw [hgpa, hgpb] at hnode
    rw [unionKeysHelper_eq_unionEntries] at hnode
    simp only [Except.ok.injEq] at hnode
    rw [hlook, ← hnode]

/-- Whether a key of the union holds an object is the conjunction of whether
it does on the two sides. -/
theorem isObject_getPropD_unionEntries (a b : List (String × JsonValue)) (k : String) :
    isObject (getPropD (.obj (unionEntries a b)) k) =
      (isObject (getPropD (.obj a) k) && isObject (getPropD (.obj b) k)) := by
  by_cases hk : k ∈ a.map Prod.fst ∨ k ∈ b.map Prod.fst
  · rcases unionEntries_lookup hk with ⟨hc, hlook⟩ | ⟨ta, tb, hta, htb, hlook⟩
    · rw [getPropD_obj, hlook]
      simp only [Option.getD_some]
      rcases hc with hc | hc <;> rw [hc] <;> simp [isObject]
    · rw [getPropD_obj, hlook, getPropD_obj, hta, getPropD_obj, htb]
      simp [isObject]
  · push_neg at hk
    have hla : List.lookup k a = none := lookup_eq_none_iff.mpr hk.1
    have hlb : List.lookup k b = none := lookup_eq_none_iff.mpr hk.2
    have hlu := unionEntries_lookup_none hk.1 hk.2
    rw [getPropD_obj, hlu, getPropD_obj, hla, getPropD_obj, hlb]
    simp [isObject]

/-- The sub-object stored under a key is structurally smaller than the whole
entry list. -/
theorem sizeOf_lookup_obj_lt {k : String} {a ta : List (String × JsonValue)}
    (h : List.lookup k a = some (.obj ta)) : sizeOf ta < sizeOf a := by
  have hm := lookup_mem h
  have h1 := List.sizeOf_lt_of_mem hm
  have h2 : sizeOf (k, JsonValue.obj ta) = 1 + sizeOf k + (1 + sizeOf ta) := by simp
  omega

/-- A successful lookup witnesses key membership. -/
theorem mem_keys_of_lookup {k : String} {a : List (String × JsonValue)} {v : JsonValue}
    (h : List.lookup k a = some v) : k ∈ a.map Prod.fst :=
  lookup_isSome_iff.mp (by rw [h]; rfl)

/-- A key holding an object reads back as an object. -/
theorem isObject_of_lookup_obj {k : String} {a ta : List (String × JsonValue)}
    (h : List.lookup k a = some (.obj ta)) :
    isObject (getPropD (.obj a) k) = true := by
  rw [getPropD_obj, h]
  simp [isObject]

/-- A key holding `null` reads back as a non-object. -/
theorem not_isObject_of_lookup_null {k : String} {a : List (String × JsonValue)}
    (h : List.lookup k a = some .null) :
    isObject (getPropD (.obj a) k) = false := by
  rw [getPropD_obj, h]
  simp [isObject]

/-- An absent key reads back as a non-object. -/
theorem not_isObject_of_not_mem {k : String} {a : List (String × JsonValue)}
    (h : k ∉ a.map Prod.fst) :
    isObject (getPropD (.obj a) k) = false := by
  rw [getPropD_obj, lookup_eq_none_iff.mpr h]
  simp [isObject]

/-- When both sides hold objects under a key, their union holds the recursive
union there. -/
theorem unionEntries_lookup_obj {a b ta tb : List (String × JsonValue)} {k : String}
    (ha : List.lookup k a = some (.obj ta)) (hb : List.lookup k b = some (.obj tb)) :
    List.lookup k (unionEntries a b) = some (.obj (unionEntries ta tb)) := by
  rcases unionEntries_lookup (Or.inl (mem_keys_of_lookup ha)) with
    ⟨hc | hc, _⟩ | ⟨ta', tb', hta', htb', hl⟩
  · rw [isObject_of_lookup_obj ha] at hc; cases hc
  · rw [isObject_of_lookup_obj hb] at hc; cases hc
  · rw [hta'] at ha
    rw [htb'] at hb
    simp only [Option.some.injEq, JsonValue.obj.injEq] at ha hb
    rw [hl, ha, hb]

/-- When either side fails to hold an object under a present key, their union
holds `null` there. -/
theorem unionEntries_lookup_null {a b : List (String × JsonValue)} {k : String}
    (hk : k ∈ a.map Prod.fst ∨ k ∈ b.map Prod.fst)
    (hno : isObject (getPropD (.obj a) k) = false ∨
      isObject (getPropD (.obj b) k) = false) :
    List.lookup k (unionEntries a b) = some .null := by
  rcases unionEntries_lookup hk with ⟨_, hl⟩ | ⟨ta, tb, hta, htb, _⟩
  · exact hl
  · exfalso
    rcases hno with hno | hno
    · rw [isObject_of_lookup_obj hta] at hno; cases hno
    · rw [isObject_of_lookup_obj htb] at hno; cases hno

/-- Structural equality of key-tree nodes with key order disregarded: `null`
matches `null`, and two mappings match when they have the same key sets and
per-key equivalent values. -/
inductive NodeEquiv : JsonValue → JsonValue → Prop where
  | null : NodeEquiv .null .null
  | obj (a b : List (String × JsonValue))
      (hkeys : ∀ k, k ∈ a.map Prod.fst ↔ k ∈ b.map Prod.fst)
      (hvals : ∀ k v w, List.lookup k a = some v → List.lookup k b = some w →
        NodeEquiv v w) :
      NodeEquiv (.obj a) (.obj b)

/-- Structural equality of key trees (entry lists) with key order
disregarded. -/
def EntriesEquiv (a b : List (String × JsonValue)) : Prop :=
  NodeEquiv (.obj a) (.obj b)

/-- Bounded-rank workhorse: union of objects is commutative up to key order. -/
theorem unionEntries_comm_aux : ∀ n, ∀ a b : List (String × JsonValue),
    sizeOf a + sizeOf b < n → EntriesEquiv (unionEntries a b) (unionEntries b a) := by
  intro n
  induction n with
  | zero => intro a b h; omega
  | succ n ih =>
      intro a b hn
      refine NodeEquiv.obj _ _ (fun k => ?_) (fun k v w hv hw => ?_)
      · rw [mem_unionEntries_keys, mem_unionEntries_keys]
        tauto
      · have hk : k ∈ a.map Prod.fst ∨ k ∈ b.map Prod.fst :=
          mem_unionEntries_keys.mp (mem_keys_of_lookup hv)
        by_cases hA : isObject (getPropD (.obj a) k) = true
        · by_cases hB : isObject (getPropD (.obj b) k) = true
          · obtain ⟨ta, hta⟩ := isObject_getPropD_obj_iff.mp hA
            obtain ⟨tb, htb⟩ := isObject_getPropD_obj_iff.mp hB
            have h1 := unionEntries_lookup_obj hta htb
            have h2 := unionEntries_lookup_obj htb hta
            rw [h1] at hv
            rw [h2] at hw
            simp only [Option.some.injEq] at hv hw
            subst hv
            subst hw
            have hlt1 := sizeOf_lookup_obj_lt hta
            have hlt2 := sizeOf_lookup_obj_lt htb
            exact ih ta tb (by omega)
          · have hB' : isObject (getPropD (.obj b) k) = false := by simpa using hB
            have h1 := unionEntries_lookup_null hk (Or.inr hB')
            have h2 := unionEntries_lookup_null (Or.symm hk) (Or.inl hB')
            rw [h1] at hv
            rw [h2] at hw
            simp only [Option.some.injEq] at hv hw
            subst hv
            subst hw
            exact NodeEquiv.null
        · have hA' : isObject (getPropD (.obj a) k) = false := by simpa using hA
          have h1 := unionEntries_lookup_null hk (Or.inl hA')
          have h2 := unionEntries_lookup_null (Or.symm hk) (Or.inr hA')
          rw [h1] at hv
          rw [h2] at hw
          simp only [Option.some.injEq] at hv hw
          subst hv
          subst hw
          exact NodeEquiv.null

/-- Bounded-rank workhorse: union of objects is associative up to key order. -/
theorem unionEntries_assoc_aux : ∀ n, ∀ a b c : List (String × JsonValue),
    sizeOf a + sizeOf b + sizeOf c < n →
    EntriesEquiv (unionEntries a (unionEntries b c))
      (unionEntries (unionEntries a b) c) := by
  intro n
  induction n with
  | zero => intro a b c h; omega
  | succ n ih =>
      intro a b c hn
      refine NodeEquiv.obj _ _ (fun k => ?_) (fun k v w hv hw => ?_)
      · rw [mem_unionEntries_keys, mem_unionEntries_keys,
          mem_unionEntries_keys, mem_unionEntries_keys]
        tauto
      · have hk : k ∈ a.map Prod.fst ∨ k ∈ b.map Prod.fst ∨ k ∈ c.map Prod.fst := by
          have := mem_unionEntries_keys.mp (mem_keys_of_lookup hv)
          rcases this with h | h
          · exact Or.inl h
          · exact Or.inr (mem_unionEntries_keys.mp h)
        have hkL : k ∈ a.map Prod.fst ∨ k ∈ (unionEntries b c).map Prod.fst := by
          rcases hk with h | h
          · exact Or.inl h
          · exact Or.inr (mem_unionEntries_keys.mpr h)
        have hkR : k ∈ (unionEntries a b).map Prod.fst ∨ k ∈ c.map Prod.fst := by
          rcases hk with h | h | h
          · exact Or.inl (mem_unionEntries_keys.mpr (Or.inl h))
          · exact Or.inl (mem_unionEntries_keys.mpr (Or.inr h))
          · exact Or.inr h
        by_cases hA : isObject (getPropD (.obj a) k) = true
        · by_cases hB : isObject (getPropD (.obj b) k) = true
          · by_cases hC : isObject (getPropD (.obj c) k) = true
            · obtain ⟨ta, hta⟩ := isObject_getPropD_obj_iff.mp hA
              obtain ⟨tb, htb⟩ := isObject_getPropD_obj_iff.mp hB
              obtain ⟨tc, htc⟩ := isObject_getPropD_obj_iff.mp hC
              have hbc := unionEntries_lookup_obj htb htc
              have hab := unionEntries_lookup_obj hta htb
              have hL := unionEntries_lookup_obj hta hbc
              have hR := unionEntries_lookup_obj hab htc
              rw [hL] at hv
              rw [hR] at hw
              simp only [Option.some.injEq] at hv hw
              subst hv
              subst hw
              have hlt1 := sizeOf_lookup_obj_lt hta
              have hlt2 := sizeOf_lookup_obj_lt htb
              have hlt3 := sizeOf_lookup_obj_lt htc
              exact ih ta tb tc (by omega)
            · have hC' : isObject (getPropD (.obj c) k) = false := by simpa using hC
              have hbcNo : isObject (getPropD (.obj (unionEntries b c)) k) = false := by
                rw [isObject_getPropD_unionEntries, hC']
                simp
              have hL := unionEntries_lookup_null hkL (Or.inr hbcNo)
              have hR := unionEntries_lookup_null hkR (Or.inr hC')
              rw [hL] at hv
              rw [hR] at hw
              simp only [Option.some.injEq] at hv hw
              subst hv
              subst hw
              exact NodeEquiv.null
          · have hB' : isObject (getPropD (.obj b) k) = false := by simpa using hB
            have hbcNo : isObject (getPropD (.obj (unionEntries b c)) k) = false := by
              rw [isObject_getPropD_unionEntries, hB']
              simp
            have habNo : isObject (getPropD (.obj (unionEntries a b)) k) = false := by
              rw [isObject_getPropD_unionEntries, hB']
              simp
            have hL := unionEntries_lookup_null hkL (Or.inr hbcNo)
            have hR := unionEntries_lookup_null hkR (Or.inl habNo)
            rw [hL] at hv
            rw [hR] at hw
            simp only [Option.some.injEq] at hv hw
            subst hv
            subst hw
            exact NodeEquiv.null
        · have hA' : isObject (getPropD (.obj a) k) = false := by simpa using hA
          have habNo : isObject (getPropD (.obj (unionEntries a b)) k) = false := by
            rw [isObject_getPropD_unionEntries, hA']
            simp
          have hL := unionEntries_lookup_null hkL (Or.inl hA')
          have hR := unionEntries_lookup_null hkR (Or.inl habNo)
          rw [hL] at hv
          rw [hR] at hw
          simp only [Option.some.injEq] at hv hw
          subst hv
          subst hw
          exact NodeEquiv.null

/-- A node equivalent to `null` is `null`. -/
theorem nodeEquiv_null_left {y : JsonValue} (h : NodeEquiv .null y) : y = .null := by
  cases h
  rfl

/-- A node equivalent to a mapping is a mapping with an equivalent entry
list. -/
theorem nodeEquiv_obj_left {x : List (String × JsonValue)} {y : JsonValue}
    (h : NodeEquiv (.obj x) y) : ∃ y', y = .obj y' ∧ EntriesEquiv x y' := by
  cases h with
  | obj _ b hkeys hvals => exact ⟨b, rfl, NodeEquiv.obj _ b hkeys hvals⟩

/-- Key-tree equivalence is symmetric. -/
theorem nodeEquiv_symm {x y : JsonValue} (h : NodeEquiv x y) : NodeEquiv y x := by
  induction h with
  | null => exact NodeEquiv.null
  | obj a b hkeys hvals ih =>
      exact NodeEquiv.obj b a (fun k => (hkeys k).symm)
        (fun k v w hv hw => ih k w v hw hv)

/-- Key-tree equivalence is transitive. -/
theorem nodeEquiv_trans {x y z : JsonValue} (hxy : NodeEquiv x y)
    (hyz : NodeEquiv y z) : NodeEquiv x z := by
  induction hxy generalizing z with
  | null => exact hyz
  | obj a b hkeys hvals ih =>
      cases hyz with
      | obj b c hkeys2 hvals2 =>
          refine NodeEquiv.obj a c (fun k => (hkeys k).trans (hkeys2 k)) ?_
          intro k v u hva hcu
          have hkb : k ∈ b.map Prod.fst := (hkeys k).mp (mem_keys_of_lookup hva)
          obtain ⟨w, hwb⟩ := Option.isSome_iff_exists.mp (lookup_isSome_iff.mpr hkb)
          exact ih k v w hva hwb (hvals2 k w u hwb hcu)

/-- "Equal or equivalent", the congruence hypothesis the fold-permutation
argument threads through: raw documents are carried by equality, combined
accumulators by equivalence. -/
def RelOrEquiv (a b : List (String × JsonValue)) : Prop :=
  a = b ∨ EntriesEquiv a b

/-- Equal-or-equivalent entry lists have the same key sets. -/
theorem relOrEquiv_keys {a a' : List (String × JsonValue)} (h : RelOrEquiv a a')
    (k : String) : k ∈ a.map Prod.fst ↔ k ∈ a'.map Prod.fst := by
  rcases h with rfl | h
  · exact Iff.rfl
  · cases h with
    | obj x y hkeys hvals => exact hkeys k

/-- Equal-or-equivalent entry lists agree on which keys hold objects. -/
theorem relOrEquiv_isObject {a a' : List (String × JsonValue)} (h : RelOrEquiv a a')
    (k : String) :
    isObject (getPropD (.obj a) k) = isObject (getPropD (.obj a') k) := by
  rcases h with rfl | h
  · rfl
  · cases h with
    | obj x y hkeys hvals =>
        cases hv : List.lookup k a with
        | none =>
            have hk' : k ∉ a'.map Prod.fst := fun hm =>
              (lookup_eq_none_iff.mp hv) ((hkeys k).mpr hm)
            rw [getPropD_obj, hv, getPropD_obj, lookup_eq_none_iff.mpr hk']
        | some v =>
            have hk' : k ∈ a'.map Prod.fst := (hkeys k).mp (mem_keys_of_lookup hv)
            obtain ⟨w, hw⟩ := Option.isSome_iff_exists.mp (lookup_isSome_iff.mpr hk')
            have hnode := hvals k v w hv hw
            rw [getPropD_obj, hv, getPropD_obj, hw]
            cases hnode with
            | null => rfl
            | obj x2 y2 _ _ => rfl

/-- A key holding an object transports along equal-or-equivalent lists. -/
theorem relOrEquiv_lookup_obj {a a' ta : List (String × JsonValue)} {k : String}
    (h : RelOrEquiv a a') (hta : List.lookup k a = some (.obj ta)) :
    ∃ ta', List.lookup k a' = some (.obj ta') ∧ RelOrEquiv ta ta' := by
  rcases h with rfl | h
  · exact ⟨ta, hta, Or.inl rfl⟩
  · cases h with
    | obj x y hkeys hvals =>
        have hk' : k ∈ a'.map Prod.fst := (hkeys k).mp (mem_keys_of_lookup hta)
        obtain ⟨w, hw⟩ := Option.isSome_iff_exists.mp (lookup_isSome_iff.mpr hk')
        obtain ⟨ta', rfl, hequiv⟩ := nodeEquiv_obj_left (hvals k _ w hta hw)
        exact ⟨ta', hw, Or.inr hequiv⟩

/-- Bounded-rank workhorse: union respects equal-or-equivalent arguments. -/
theorem union_congr_aux : ∀ n, ∀ a b a' b' : List (String × JsonValue),
    sizeOf a + sizeOf b < n → RelOrEquiv a a' → RelOrEquiv b b' →
    EntriesEquiv (unionEntries a b) (unionEntries a' b') := by
  intro n
  induction n with
  | zero => intro a b a' b' h _ _; omega
  | succ n ih =>
      intro a b a' b' hn ha hb
      refine NodeEquiv.obj _ _ (fun k => ?_) (fun k v w hv hw => ?_)
      · rw [mem_unionEntries_keys, mem_unionEntries_keys,
          relOrEquiv_keys ha k, relOrEquiv_keys hb k]
      · have hk : k ∈ a.map Prod.fst ∨ k ∈ b.map Prod.fst :=
          mem_unionEntries_keys.mp (mem_keys_of_lookup hv)
        have hk' : k ∈ a'.map Prod.fst ∨ k ∈ b'.map Prod.fst := by
          rw [← relOrEquiv_keys ha k, ← relOrEquiv_keys hb k]
          exact hk
        by_cases hA : isObject (getPropD (.obj a) k) = true
        · by_cases hB : isObject (getPropD (.obj b) k) = true
          · obtain ⟨ta, hta⟩ := isObject_getPropD_obj_iff.mp hA
            obtain ⟨tb, htb⟩ := isObject_getPropD_obj_iff.mp hB
            obtain ⟨ta', hta', hroa⟩ := relOrEquiv_lookup_obj ha hta
            obtain ⟨tb', htb', hrob⟩ := relOrEquiv_lookup_obj hb htb
            rw [unionEntries_lookup_obj hta htb] at hv
            rw [unionEntries_lookup_obj hta' htb'] at hw
            simp only [Option.some.injEq] at hv hw
            subst hv
            subst hw
            have hlt1 := sizeOf_lookup_obj_lt hta
            have hlt2 := sizeOf_lookup_obj_lt htb
            exact ih ta tb ta' tb' (by omega) hroa hrob
          · have hB' : isObject (getPropD (.obj b) k) = false := by simpa using hB
            have hB'' : isObject (getPropD (.obj b') k) = false := by
              rw [← relOrEquiv_isObject hb k]
              exact hB'
            rw [unionEntries_lookup_null hk (Or.inr hB')] at hv
            rw [unionEntries_lookup_null hk' (Or.inr hB'')] at hw
            simp only [Option.some.injEq] at hv hw
            subst hv
            subst hw
            exact NodeEquiv.null
        · have hA' : isObject (getPropD (.obj a) k) = false := by simpa using hA
          have hA'' : isObject (getPropD (.obj a') k) = false := by
            rw [← relOrEquiv_isObject ha k]
            exact hA'
          rw [unionEntries_lookup_null hk (Or.inl hA')] at hv
          rw [unionEntries_lookup_null hk' (Or.inl hA'')] at hw
          simp only [Option.some.injEq] at hv hw
          subst hv
          subst hw
          exact NodeEquiv.null

/-- Union respects equal-or-equivalent arguments. -/
theorem union_congr {a b a' b' : List (String × JsonValue)}
    (ha : RelOrEquiv a a') (hb : RelOrEquiv b b') :
    EntriesEquiv (unionEntries a b) (unionEntries a' b') :=
  union_congr_aux (sizeOf a + sizeOf b + 1) a b a' b' (Nat.lt_succ_self _) ha hb

/-- Every union output is self-equivalent (its values are only `null` and
nested union outputs). -/
theorem unionEntries_self_equiv (a b : List (String × JsonValue)) :
    EntriesEquiv (unionEntries a b) (unionEntries a b) :=
  union_congr (Or.inl rfl) (Or.inl rfl)

/-- Union of objects is commutative up to key order. -/
theorem unionEntries_comm (a b : List (String × JsonValue)) :
    EntriesEquiv (unionEntries a b) (unionEntries b a) :=
  unionEntries_comm_aux (sizeOf a + sizeOf b + 1) a b (Nat.lt_succ_self _)

/-- Union of objects is associative up to key order. -/
theorem unionEntries_assoc (a b c : List (String × JsonValue)) :
    EntriesEquiv (unionEntries a (unionEntries b c))
      (unionEntries (unionEntries a b) c) :=
  unionEntries_assoc_aux (sizeOf a + sizeOf b + sizeOf c + 1) a b c (Nat.lt_succ_self _)

/-- Equal-or-equivalent is transitive. -/
theorem relOrEquiv_trans {x y z : List (String × JsonValue)}
    (h1 : RelOrEquiv x y) (h2 : RelOrEquiv y z) : RelOrEquiv x z := by
  rcases h1 with rfl | h1
  · exact h2
  · rcases h2 with rfl | h2
    · exact Or.inr h1
    · exact Or.inr (nodeEquiv_trans h1 h2)

/-- Folding union over a fixed document list respects equal-or-equivalent
seeds. -/
theorem unionFoldl_congr (ds : List (List (String × JsonValue)))
    {acc acc' : List (String × JsonValue)} (h : RelOrEquiv acc acc') :
    RelOrEquiv (ds.foldl unionEntries acc) (ds.foldl unionEntries acc') := by
  induction ds generalizing acc acc' with
  | nil => exact h
  | cons d t ih => exact ih (Or.inr (union_congr h (Or.inl rfl)))

/-- Folding union over permuted document lists from equal-or-equivalent seeds
yields equal-or-equivalent results. -/
theorem unionFoldl_perm {ds ds' : List (List (String × JsonValue))}
    (hperm : List.Perm ds ds') :
    ∀ acc acc', RelOrEquiv acc acc' →
    RelOrEquiv (ds.foldl unionEntries acc) (ds'.foldl unionEntries acc') := by
  induction hperm with
  | nil => intro acc acc' h; exact h
  | cons d hp ih =>
      intro acc acc' h
      exact ih _ _ (Or.inr (union_congr h (Or.inl rfl)))
  | swap x y l =>
      intro acc acc' h
      refine unionFoldl_congr l (Or.inr ?_)
      have e1 : EntriesEquiv (unionEntries (unionEntries acc y) x)
          (unionEntries acc (unionEntries y x)) :=
        nodeEquiv_symm (unionEntries_assoc acc y x)
      have e2 : EntriesEquiv (unionEntries acc (unionEntries y x))
          (unionEntries acc' (unionEntries x y)) :=
        union_congr h (Or.inr (unionEntries_comm y x))
      have e3 : EntriesEquiv (unionEntries acc' (unionEntries x y))
          (unionEntries (unionEntries acc' x) y) :=
        unionEntries_assoc acc' x y
      exact nodeEquiv_trans e1 (nodeEquiv_trans e2 e3)
  | trans h1 h2 ih1 ih2 =>
      intro acc acc' h
      exact relOrEquiv_trans (ih1 acc acc (Or.inl rfl)) (ih2 acc acc' h)

/-- The extraction policy stated by the specification (§4.2): per entry, a
non-nestable value records a `Leaf` and an object records the recursively
extracted sub-shape.  Used to characterise what `enumerateKeyTreeHelper`
computes on objects. -/
def specExtractEntries : List (String × JsonValue) → List (String × JsonValue)
  | [] => []
  | (k, v) :: rest =>
      (k, match v with
          | .obj es => .obj (specExtractEntries es)
          | _ => .null) :: specExtractEntries rest

/-- The shape node the extraction policy assigns to a single value. -/
def specNode : JsonValue → JsonValue
  | .obj es => .obj (specExtractEntries es)
  | _ => .null

/-- The extraction policy processes entries pointwise. -/
theorem specExtractEntries_cons (k : String) (v : JsonValue)
    (rest : List (String × JsonValue)) :
    specExtractEntries ((k, v) :: rest) =
      (k, specNode v) :: specExtractEntries rest := by
  cases v <;> simp [specExtractEntries, specNode]

/-- Extraction preserves keys and their order. -/
theorem specExtractEntries_map_fst (es : List (String × JsonValue)) :
    (specExtractEntries es).map Prod.fst = es.map Prod.fst := by
  induction es with
  | nil => simp [specExtractEntries]
  | cons e rest ih =>
      obtain ⟨k, v⟩ := e
      rw [specExtractEntries_cons]
      simp [ih]

/-- Lookup in an extracted shape is the extraction of the lookup. -/
theorem lookup_specExtractEntries (k : String) (es : List (String × JsonValue)) :
    List.lookup k (specExtractEntries es) = (List.lookup k es).map specNode := by
  induction es with
  | nil => simp [specExtractEntries, List.lookup]
  | cons e rest ih =>
      obtain ⟨k2, v⟩ := e
      rw [specExtractEntries_cons]
      by_cases hk : (k == k2) = true
      · simp [List.lookup, hk]
      · simp only [List.lookup, hk]
        exact ih

/-- A value and its shape node agree on objecthood. -/
theorem isObject_specNode (v : JsonValue) : isObject (specNode v) = isObject v := by
  cases v <;> simp [specNode, isObject]

/-- Bounded-rank workhorse: on an object's entries, the source's extraction
loop computes exactly the specification's extraction policy (and never
throws). -/
theorem ektEntries_spec_aux : ∀ n, ∀ es : List (String × JsonValue), sizeOf es < n →
    ektEntries es = .ok (specExtractEntries es) := by
  intro n
  induction n with
  | zero => intro es h; omega
  | succ n ih =>
      intro es hn
      cases es with
      | nil => simp [ektEntries, specExtractEntries]
      | cons e rest =>
          obtain ⟨k, v⟩ := e
          have hsz : sizeOf ((k, v) :: rest) = 1 + (1 + sizeOf k + sizeOf v) + sizeOf rest := by
            simp
          have h2 : sizeOf rest < n := by omega
          have hrest := ih rest h2
          rw [specExtractEntries_cons]
          cases v with
          | obj es' =>
              have h1 : sizeOf es' < n := by
                have : sizeOf (JsonValue.obj es') = 1 + sizeOf es' := by simp
                omega
              have hrec : enumerateKeyTreeHelper (.obj es') = .ok (specExtractEntries es') := by
                simp only [enumerateKeyTreeHelper]
                exact ih es' h1
              simp only [ektEntries]
              rw [if_pos (by simp [isObject] : isObject (JsonValue.obj es') = true)]
              rw [hrec, hrest]
              simp [specNode]
          | null =>
              simp only [ektEntries]
              rw [if_neg (by simp [isObject] : ¬isObject JsonValue.null = true)]
              rw [hrest]
              simp [specNode]
          | bool b =>
              simp only [ektEntries]
              rw [if_neg (by simp [isObject] : ¬isObject (JsonValue.bool b) = true)]
              rw [hrest]
              simp [specNode]
          | num m =>
              simp only [ektEntries]
              rw [if_neg (by simp [isObject] : ¬isObject (JsonValue.num m) = true)]
              rw [hrest]
              simp [specNode]
          | str s =>
              simp only [ektEntries]
              rw [if_neg (by simp [isObject] : ¬isObject (JsonValue.str s) = true)]
              rw [hrest]
              simp [specNode]
          | arr xs =>
              simp only [ektEntries]
              rw [if_neg (by simp [isObject] : ¬isObject (JsonValue.arr xs) = true)]
              rw [hrest]
              simp [specNode]

/-- On an object's entries, the extraction loop computes the specification's
extraction policy. -/
theorem ektEntries_spec (es : List (String × JsonValue)) :
    ektEntries es = .ok (specExtractEntries es) :=
  ektEntries_spec_aux (sizeOf es + 1) es (Nat.lt_succ_self _)

/-- `enumerateKeyTree` on an object succeeds and computes the specification's
extraction policy entrywise. -/
theorem enumerateKeyTree_obj (es : List (String × JsonValue)) :
    enumerateKeyTree (.obj es) = .ok (.obj (specExtractEntries es)) := by
  simp only [enumerateKeyTree, enumerateKeyTreeHelper]
  rw [ektEntries_spec]

/-- Modelled from the spec (§4.5): the accumulation loop of the N-way Reducer
as the spec words it, combining the accumulator with the *extracted shape* of
each remaining document (`acc := combine(acc, extractShape(documents[i]))`),
here for the union operation. -/
def specShapeUnionFold (acc : JsonValue) : List JsonValue → Except String JsonValue
  | [] => .ok acc
  | d :: rest =>
      match enumerateKeyTree d with
      | .error e => .error e
      | .ok s =>
          match unionKeys acc s with
          | .error e => .error e
          | .ok t => specShapeUnionFold t rest

/-- Modelled from the spec (§4.5): the N-way Reducer over *extracted shapes*
for the union operation: seed with the combination of the first two documents'
extracted shapes, then fold the remaining extracted shapes left to right. -/
def specReduceUnionShapes : List JsonValue → Except String JsonValue
  | [] => .error "Array is empty."
  | [d] => enumerateKeyTree d
  | d1 :: d2 :: rest =>
      match enumerateKeyTree d1 with
      | .error e => .error e
      | .ok s1 =>
          match enumerateKeyTree d2 with
          | .error e => .error e
          | .ok s2 =>
              match unionKeys s1 s2 with
              | .error e => .error e
              | .ok t => specShapeUnionFold t rest

/-- Modelled from the spec (§4.5): the accumulation loop over extracted
shapes, for the intersection operation. -/
def specShapeIntersectFold (acc : JsonValue) : List JsonValue → Except String JsonValue
  | [] => .ok acc
  | d :: rest =>
      match enumerateKeyTree d with
      | .error e => .error e
      | .ok s =>
          match intersectKeys acc s with
          | .error e => .error e
          | .ok t => specShapeIntersectFold t rest

/-- Modelled from the spec (§4.5): the N-way Reducer over *extracted shapes*
for the intersection operation. -/
def specReduceIntersectShapes : List JsonValue → Except String JsonValue
  | [] => .error "Array is empty."
  | [d] => enumerateKeyTree d
  | d1 :: d2 :: rest =>
      match enumerateKeyTree d1 with
      | .error e => .error e
      | .ok s1 =>
          match enumerateKeyTree d2 with
          | .error e => .error e
          | .ok s2 =>
              match intersectKeys s1 s2 with
              | .error e => .error e
              | .ok t => specShapeIntersectFold t rest

/-- Extracting a shape preserves which keys hold objects. -/
theorem isObject_getPropD_specExtract (ws : List (String × JsonValue)) (p : String) :
    isObject (getPropD (.obj (specExtractEntries ws)) p) =
      isObject (getPropD (.obj ws) p) := by
  rw [getPropD_obj, getPropD_obj, lookup_specExtractEntries]
  cases List.lookup p ws with
  | none => simp
  | some v => simpa using isObject_specNode v

/-- `Object.keys` of a modelled object literal. -/
theorem jsKeys_obj (es : List (String × JsonValue)) :
    jsKeys (.obj es) = .ok (es.map Prod.fst) := rfl

/-- Bounded-rank workhorse: replacing the right operand of a union by its
extracted shape does not change the result. -/
theorem union_extract_right_aux : ∀ n, ∀ first : JsonValue, sizeOf first < n →
    (∀ ws : List (String × JsonValue),
      unionKeysHelper first (.obj ws) =
        unionKeysHelper first (.obj (specExtractEntries ws))) ∧
    (∀ ws : List (String × JsonValue), ∀ props,
      unionProps first (.obj ws) props =
        unionProps first (.obj (specExtractEntries ws)) props) := by
  intro n
  induction n with
  | zero => intro first h; omega
  | succ n ih =>
      intro first hn
      have hprops : ∀ ws : List (String × JsonValue), ∀ props,
          unionProps first (.obj ws) props =
            unionProps first (.obj (specExtractEntries ws)) props := by
        intro ws props
        induction props with
        | nil => simp only [unionProps]
        | cons p rest ihp =>
            have hcond : (!isObject (getPropD first p) ||
                !isObject (getPropD (.obj (specExtractEntries ws)) p)) =
                (!isObject (getPropD first p) || !isObject (getPropD (.obj ws) p)) := by
              rw [isObject_getPropD_specExtract]
            simp only [unionProps, hcond]
            by_cases hc : (!isObject (getPropD first p) ||
                !isObject (getPropD (.obj ws) p)) = true
            · rw [dif_pos hc, dif_pos hc, ihp]
            · rw [dif_neg hc, dif_neg hc, ihp]
              have hobj : isObject (getPropD (.obj ws) p) = true := by
                simp only [Bool.or_eq_true, Bool.not_eq_true', not_or,
                  Bool.not_eq_false] at hc
                exact hc.2
              obtain ⟨tws, htws⟩ := isObject_getPropD_obj_iff.mp hobj
              have hg1 : getPropD (.obj ws) p = .obj tws := by
                rw [getPropD_obj, htws]; rfl
              have hg2 : getPropD (.obj (specExtractEntries ws)) p =
                  .obj (specExtractEntries tws) := by
                rw [getPropD_obj, lookup_specExtractEntries, htws]
                simp [specNode]
              rw [hg1, hg2]
              have hflt : sizeOf (getPropD first p) < n := by
                by_cases hof : isObject (getPropD first p) = true
                · have := sizeOf_getPropD_lt first p hof
                  omega
                · exfalso
                  simp only [Bool.or_eq_true, Bool.not_eq_true', not_or,
                    Bool.not_eq_false] at hc
                  exact absurd hc.1 hof
              rw [(ih (getPropD first p) hflt).1 tws]
      exact ⟨fun ws => by
        cases hf : jsKeys first with
        | error e => simp only [unionKeysHelper, hf]
        | ok fk =>
            simp only [unionKeysHelper, hf, jsKeys_obj,
              specExtractEntries_map_fst, hprops ws], hprops⟩

/-- Replacing the right operand of a union by its extracted shape does not
change the result. -/
theorem union_extract_right (first : JsonValue) (ws : List (String × JsonValue)) :
    unionKeysHelper first (.obj ws) =
      unionKeysHelper first (.obj (specExtractEntries ws)) :=
  (union_extract_right_aux (sizeOf first + 1) first (Nat.lt_succ_self _)).1 ws

/-- Bounded-rank workhorse: replacing the left operand of a union by its
extracted shape does not change the result. -/
theorem union_extract_left_aux : ∀ n, ∀ vs : List (String × JsonValue), sizeOf vs < n →
    (∀ second : JsonValue,
      unionKeysHelper (.obj vs) second =
        unionKeysHelper (.obj (specExtractEntries vs)) second) ∧
    (∀ second : JsonValue, ∀ props,
      unionProps (.obj vs) second props =
        unionProps (.obj (specExtractEntries vs)) second props) := by
  intro n
  induction n with
  | zero => intro vs h; omega
  | succ n ih =>
      intro vs hn
      have hprops : ∀ second : JsonValue, ∀ props,
          unionProps (.obj vs) second props =
            unionProps (.obj (specExtractEntries vs)) second props := by
        intro second props
        induction props with
        | nil => simp only [unionProps]
        | cons p rest ihp =>
            have hcond : (!isObject (getPropD (.obj (specExtractEntries vs)) p) ||
                !isObject (getPropD second p)) =
                (!isObject (getPropD (.obj vs) p) || !isObject (getPropD second p)) := by
              rw [isObject_getPropD_specExtract]
            simp only [unionProps, hcond]
            by_cases hc : (!isObject (getPropD (.obj vs) p) ||
                !isObject (getPropD second p)) = true
            · rw [dif_pos hc, dif_pos hc, ihp]
            · rw [dif_neg hc, dif_neg hc, ihp]
              have hobj : isObject (getPropD (.obj vs) p) = true := by
                simp only [Bool.or_eq_true, Bool.not_eq_true', not_or,
                  Bool.not_eq_false] at hc
                exact hc.1
              obtain ⟨tvs, htvs⟩ := isObject_getPropD_obj_iff.mp hobj
              have hg1 : getPropD (.obj vs) p = .obj tvs := by
                rw [getPropD_obj, htvs]; rfl
              have hg2 : getPropD (.obj (specExtractEntries vs)) p =
                  .obj (specExtractEntries tvs) := by
                rw [getPropD_obj, lookup_specExtractEntries, htvs]
                simp [specNode]
              rw [hg1, hg2]
              have hlt : sizeOf tvs < n := by
                have := sizeOf_lookup_obj_lt htvs
                have : sizeOf (JsonValue.obj vs) = 1 + sizeOf vs := by simp
                have h2 := sizeOf_lookup_obj_lt htvs
                omega
              rw [(ih tvs hlt).1 (getPropD second p)]
      exact ⟨fun second => by
        cases hs : jsKeys second with
        | error e =>
            simp only [unionKeysHelper, jsKeys_obj, specExtractEntries_map_fst, hs]
        | ok sk =>
            simp only [unionKeysHelper, jsKeys_obj, specExtractEntries_map_fst,
              hs, hprops], hprops⟩

/-- Replacing the left operand of a union by its extracted shape does not
change the result. -/
theorem union_extract_left (vs : List (String × JsonValue)) (second : JsonValue) :
    unionKeysHelper (.obj vs) second =
      unionKeysHelper (.obj (specExtractEntries vs)) second :=
  (union_extract_left_aux (sizeOf vs + 1) vs (Nat.lt_succ_self _)).1 second

/-- The accumulation loop of `findUnionKeys` over raw object documents equals
the spec's loop over their extracted shapes. -/
theorem unionFold_extract : ∀ rest : List JsonValue, ∀ acc : JsonValue,
    isObject acc = true → (∀ d ∈ rest, isObject d = true) →
    unionFold acc rest = specShapeUnionFold acc rest := by
  intro rest
  induction rest with
  | nil => intro acc _ _; rfl
  | cons d t ih =>
      intro acc hacc hall
      have hd : isObject d = true := hall d (List.mem_cons_self _ _)
      cases acc with
      | obj ae =>
          cases d with
          | obj de =>
              have hu : unionKeys (.obj ae) (.obj de) =
                  .ok (.obj (unionEntries ae (specExtractEntries de))) := by
                simp only [unionKeys]
                rw [union_extract_right]
                exact unionKeysHelper_eq_unionEntries ae (specExtractEntries de)
              have hu2 : unionKeys (.obj ae) (.obj (specExtractEntries de)) =
                  .ok (.obj (unionEntries ae (specExtractEntries de))) :=
                unionKeysHelper_eq_unionEntries ae (specExtractEntries de)
              simp only [unionFold, specShapeUnionFold, enumerateKeyTree_obj, hu, hu2]
              exact ih _ (by simp [isObject])
                (fun d2 hd2 => hall d2 (List.mem_cons_of_mem _ hd2))
          | null => simp [isObject] at hd
          | bool b => simp [isObject] at hd
          | num m => simp [isObject] at hd
          | str s => simp [isObject] at hd
          | arr xs => simp [isObject] at hd
      | null => simp [isObject] at hacc
      | bool b => simp [isObject] at hacc
      | num m => simp [isObject] at hacc
      | str s => simp [isObject] at hacc
      | arr xs => simp [isObject] at hacc

/-- For the union operation on object documents, the source's reducer over raw
parsed documents computes the same result as the spec's reducer over extracted
shapes. -/
theorem findUnionKeys_extract_shapes (docs : List JsonValue)
    (hall : ∀ d ∈ docs, isObject d = true) :
    findUnionKeys docs = specReduceUnionShapes docs := by
  match docs with
  | [] => rfl
  | [d] => rfl
  | d1 :: d2 :: rest =>
      have h1 : isObject d1 = true := hall _ (by simp)
      have h2 : isObject d2 = true := hall _ (by simp)
      cases d1 with
      | obj e1 =>
          cases d2 with
          | obj e2 =>
              have hu : unionKeys (.obj e1) (.obj e2) =
                  .ok (.obj (unionEntries (specExtractEntries e1)
                    (specExtractEntries e2))) := by
                simp only [unionKeys]
                rw [union_extract_right, union_extract_left]
                exact unionKeysHelper_eq_unionEntries _ _
              have hu2 : unionKeys (.obj (specExtractEntries e1))
                  (.obj (specExtractEntries e2)) =
                  .ok (.obj (unionEntries (specExtractEntries e1)
                    (specExtractEntries e2))) :=
                unionKeysHelper_eq_unionEntries _ _
              simp only [findUnionKeys, specReduceUnionShapes,
                enumerateKeyTree_obj, hu, hu2]
              refine unionFold_extract rest _ (by simp [isObject]) ?_
              intro d hd
              exact hall d (by simp [hd])
          | null => simp [isObject] at h2
          | bool b => simp [isObject] at h2
          | num m => simp [isObject] at h2
          | str s => simp [isObject] at h2
          | arr xs => simp [isObject] at h2
      | null => simp [isObject] at h1
      | bool b => simp [isObject] at h1
      | num m => simp [isObject] at h1
      | str s => simp [isObject] at h1
      | arr xs => simp [isObject] at h1

/-- Well-formedness of a key-tree entry list: every value is either `null`
(a `Leaf`) or a nested well-formed mapping. -/
def IsShapeEntries : List (String × JsonValue) → Bool
  | [] => true
  | (_, v) :: rest =>
      (match v with
       | .null => true
       | .obj es => IsShapeEntries es
       | _ => false) && IsShapeEntries rest
termination_by l => sizeOf l
decreasing_by
  all_goals simp
  all_goals omega

/-- Well-formedness of a key tree: an object whose entries are well-formed. -/
def IsShape : JsonValue → Bool
  | .obj es => IsShapeEntries es
  | _ => false

/-- Index-keyed leaf lists (what extraction yields for a string) are
well-formed. -/
theorem isShapeEntries_leaves (l : List String) :
    IsShapeEntries (l.map fun k => (k, JsonValue.null)) = true := by
  induction l with
  | nil => simp [IsShapeEntries]
  | cons x rest ih => simp [IsShapeEntries, ih]

/-- Bounded-rank workhorse: the spec extraction policy yields well-formed
entry lists. -/
theorem isShapeEntries_specExtract_aux : ∀ n, ∀ es : List (String × JsonValue),
    sizeOf es < n → IsShapeEntries (specExtractEntries es) = true := by
  intro n
  induction n with
  | zero => intro es h; omega
  | succ n ih =>
      intro es hn
      cases es with
      | nil => simp [specExtractEntries, IsShapeEntries]
      | cons e rest =>
          obtain ⟨k, v⟩ := e
          have hsz : sizeOf ((k, v) :: rest) =
              1 + (1 + sizeOf k + sizeOf v) + sizeOf rest := by simp
          have hrest := ih rest (by omega)
          rw [specExtractEntries_cons]
          cases v with
          | obj es' =>
              have h1 : sizeOf es' < n := by
                have : sizeOf (JsonValue.obj es') = 1 + sizeOf es' := by simp
                omega
              simp [IsShapeEntries, specNode, hrest, ih es' h1]
          | null => simp [IsShapeEntries, specNode, hrest]
          | bool b => simp [IsShapeEntries, specNode, hrest]
          | num m => simp [IsShapeEntries, specNode, hrest]
          | str s => simp [IsShapeEntries, specNode, hrest]
          | arr xs => simp [IsShapeEntries, specNode, hrest]

/-- The spec extraction policy yields well-formed entry lists. -/
theorem isShapeEntries_specExtract (es : List (String × JsonValue)) :
    IsShapeEntries (specExtractEntries es) = true :=
  isShapeEntries_specExtract_aux (sizeOf es + 1) es (Nat.lt_succ_self _)

/-- The extraction loop over array elements yields well-formed entries. -/
theorem ektElems_shape : ∀ xs : List JsonValue, ∀ i : Nat,
    ∀ l : List (String × JsonValue), ektElems i xs = .ok l →
    IsShapeEntries l = true := by
  intro xs
  induction xs with
  | nil =>
      intro i l h
      simp only [ektElems, Except.ok.injEq] at h
      subst h
      simp [IsShapeEntries]
  | cons v rest ih =>
      intro i l h
      simp only [ektElems] at h
      by_cases hv : isObject v = true
      · rw [if_pos hv] at h
        cases v with
        | obj es' =>
            rw [show enumerateKeyTreeHelper (.obj es') = ektEntries es' from by
                simp only [enumerateKeyTreeHelper], ektEntries_spec es'] at h
            cases hrest : ektElems (i + 1) rest with
            | error e => rw [hrest] at h; simp at h
            | ok tl =>
                rw [hrest] at h
                simp only [Except.ok.injEq] at h
                subst h
                simp [IsShapeEntries, isShapeEntries_specExtract, ih (i + 1) tl hrest]
        | null => simp [isObject] at hv
        | bool b => simp [isObject] at hv
        | num m => simp [isObject] at hv
        | str s => simp [isObject] at hv
        | arr ys => simp [isObject] at hv
      · rw [if_neg hv] at h
        cases hrest : ektElems (i + 1) rest with
        | error e => rw [hrest] at h; simp at h
        | ok tl =>
            rw [hrest] at h
            simp only [Except.ok.injEq] at h
            subst h
            simp [IsShapeEntries, ih (i + 1) tl hrest]

/-- Whenever shape extraction returns, it returns a well-formed key tree. -/
theorem enumerateKeyTree_shape (v : JsonValue) (t : JsonValue)
    (h : enumerateKeyTree v = .ok t) : IsShape t = true := by
  cases v with
  | null => simp [enumerateKeyTree, enumerateKeyTreeHelper] at h
  | bool b =>
      simp only [enumerateKeyTree, enumerateKeyTreeHelper, Except.ok.injEq] at h
      subst h
      simp [IsShape, IsShapeEntries]
  | num m =>
      simp only [enumerateKeyTree, enumerateKeyTreeHelper, Except.ok.injEq] at h
      subst h
      simp [IsShape, IsShapeEntries]
  | str s =>
      simp only [enumerateKeyTree, enumerateKeyTreeHelper, Except.ok.injEq] at h
      subst h
      simp [IsShape, isShapeEntries_leaves]
  | arr xs =>
      simp only [enumerateKeyTree, enumerateKeyTreeHelper] at h
      cases he : ektElems 0 xs with
      | error e => rw [he] at h; simp at h
      | ok l =>
          rw [he] at h
          simp only [Except.ok.injEq] at h
          subst h
          simpa [IsShape] using ektElems_shape xs 0 l he
  | obj es =>
      rw [enumerateKeyTree_obj] at h
      simp only [Except.ok.injEq] at h
      subst h
      simpa [IsShape] using isShapeEntries_specExtract es

/-- The keys of the entry list built by the intersection loop are exactly the
props iterated, in order. -/
theorem interProps_map_fst {f s : JsonValue} {props : List String}
    {l : List (String × JsonValue)} (h : interProps f s props = .ok l) :
    l.map Prod.fst = props := by
  induction props generalizing l with
  | nil =>
      simp only [interProps, Except.ok.injEq] at h
      subst h
      simp
  | cons p rest ihp =>
      simp only [interProps] at h
      by_cases hc : isObject (getPropD f p) = true
      · rw [dif_pos hc] at h
        cases hnode : intersectKeysHelper (getPropD f p) (getPropD s p) with
        | error e => rw [hnode] at h; simp at h
        | ok node =>
            rw [hnode] at h
            cases hrest : interProps f s rest with
            | error e => rw [hrest] at h; simp at h
            | ok tl =>
                rw [hrest] at h
                simp only [Except.ok.injEq] at h
                subst h
                simp [ihp hrest]
      · rw [dif_neg hc] at h
        cases hrest : interProps f s rest with
        | error e => rw [hrest] at h; simp at h
        | ok tl =>
            rw [hrest] at h
            simp only [Except.ok.injEq] at h
            subst h
            simp [ihp hrest]

/-- Inversion of a successful intersection of two objects: the result is an
object built by the loop over the intersected key set. -/
theorem interHelper_obj_ok_inv {a b : List (String × JsonValue)} {t : JsonValue}
    (h : intersectKeysHelper (.obj a) (.obj b) = .ok t) :
    ∃ l, t = .obj l ∧
      interProps (.obj a) (.obj b)
        (setIntersection (a.map Prod.fst) (b.map Prod.fst)) = .ok l := by
  simp only [intersectKeysHelper, jsKeys_obj] at h
  cases hp : interProps (.obj a) (.obj b)
      (setIntersection (a.map Prod.fst) (b.map Prod.fst)) with
  | error e => rw [hp] at h; simp at h
  | ok l =>
      rw [hp] at h
      simp only [Except.ok.injEq] at h
      exact ⟨l, h.symm, rfl⟩

/-- What the intersection loop stores for each iterated key: `null` when
`first`'s value is not an object, the recursive intersection otherwise. -/
theorem interProps_lookup {f s : JsonValue} {props : List String}
    {l : List (String × JsonValue)} (hnd : props.Nodup)
    (h : interProps f s props = .ok l) {k : String} (hk : k ∈ props) :
    (isObject (getPropD f k) = false ∧ List.lookup k l = some .null) ∨
    (isObject (getPropD f k) = true ∧
      ∃ node, intersectKeysHelper (getPropD f k) (getPropD s k) = .ok node ∧
        List.lookup k l = some node) := by
  induction props generalizing l with
  | nil => simp at hk
  | cons p rest ihp =>
      obtain ⟨hp, hndrest⟩ := List.nodup_cons.mp hnd
      simp only [interProps] at h
      rcases List.mem_cons.mp hk with rfl | hkrest
      · by_cases hc : isObject (getPropD f k) = true
        · rw [dif_pos hc] at h
          cases hnode : intersectKeysHelper (getPropD f k) (getPropD s k) with
          | error e => rw [hnode] at h; simp at h
          | ok node =>
              rw [hnode] at h
              cases hrest : interProps f s rest with
              | error e => rw [hrest] at h; simp at h
              | ok tl =>
                  rw [hrest] at h
                  simp only [Except.ok.injEq] at h
                  subst h
                  refine Or.inr ⟨hc, node, ?_, ?_⟩
                  · rfl
                  · simp [List.lookup]
        · rw [dif_neg hc] at h
          cases hrest : interProps f s rest with
          | error e => rw [hrest] at h; simp at h
          | ok tl =>
              rw [hrest] at h
              simp only [Except.ok.injEq] at h
              subst h
              exact Or.inl ⟨by simpa using hc, by simp [List.lookup]⟩
      · have hkp : ¬(k = p) := fun hkp => hp (hkp ▸ hkrest)
        have hbeq : (k == p) = false := by simp [hkp]
        by_cases hc : isObject (getPropD f p) = true
        · rw [dif_pos hc] at h
          cases hnode : intersectKeysHelper (getPropD f p) (getPropD s p) with
          | error e => rw [hnode] at h; simp at h
          | ok node =>
              rw [hnode] at h
              cases hrest : interProps f s rest with
              | error e => rw [hrest] at h; simp at h
              | ok tl =>
                  rw [hrest] at h
                  simp only [Except.ok.injEq] at h
                  subst h
                  simpa [List.lookup, hbeq] using ihp hndrest hrest hkrest
        · rw [dif_neg hc] at h
          cases hrest : interProps f s rest with
          | error e => rw [hrest] at h; simp at h
          | ok tl =>
              rw [hrest] at h
              simp only [Except.ok.injEq] at h
              subst h
              simpa [List.lookup, hbeq] using ihp hndrest hrest hkrest

/-- Bounded-rank workhorse: whenever intersection returns, it returns a
well-formed key tree. -/
theorem inter_shape_aux : ∀ n, ∀ f s : JsonValue, sizeOf f < n →
    (∀ t, intersectKeysHelper f s = .ok t → IsShape t = true) ∧
    (∀ props l, interProps f s props = .ok l → IsShapeEntries l = true) := by
  intro n
  induction n with
  | zero => intro f s h; omega
  | succ n ih =>
      intro f s hn
      have hprops : ∀ props l, interProps f s props = .ok l →
          IsShapeEntries l = true := by
        intro props
        induction props with
        | nil =>
            intro l h
            simp only [interProps, Except.ok.injEq] at h
            subst h
            simp [IsShapeEntries]
        | cons p rest ihp =>
            intro l h
            simp only [interProps] at h
            by_cases hc : isObject (getPropD f p) = true
            · rw [dif_pos hc] at h
              cases hnode : intersectKeysHelper (getPropD f p) (getPropD s p) with
              | error e => rw [hnode] at h; simp at h
              | ok node =>
                  rw [hnode] at h
                  cases hrest : interProps f s rest with
                  | error e => rw [hrest] at h; simp at h
                  | ok tl =>
                      rw [hrest] at h
                      simp only [Except.ok.injEq] at h
                      subst h
                      have hflt : sizeOf (getPropD f p) < n := by
                        have := sizeOf_getPropD_lt f p hc
                        omega
                      have hnodeShape :=
                        (ih (getPropD f p) (getPropD s p) hflt).1 node hnode
                      cases node with
                      | obj sub =>
                          simp only [IsShape] at hnodeShape
                          simp [IsShapeEntries, hnodeShape, ihp tl hrest]
                      | null => simp [IsShape] at hnodeShape
                      | bool b2 => simp [IsShape] at hnodeShape
                      | num m => simp [IsShape] at hnodeShape
                      | str s2 => simp [IsShape] at hnodeShape
                      | arr xs => simp [IsShape] at hnodeShape
            · rw [dif_neg hc] at h
              cases hrest : interProps f s rest with
              | error e => rw [hrest] at h; simp at h
              | ok tl =>
                  rw [hrest] at h
                  simp only [Except.ok.injEq] at h
                  subst h
                  simp [IsShapeEntries, ihp tl hrest]
      refine ⟨?_, hprops⟩
      intro t h
      cases hf : jsKeys f with
      | error e => simp only [intersectKeysHelper, hf] at h; simp at h
      | ok fk =>
          cases hs : jsKeys s with
          | error e => simp only [intersectKeysHelper, hf, hs] at h; simp at h
          | ok sk =>
              simp only [intersectKeysHelper, hf, hs] at h
              cases hp : interProps f s (setIntersection fk sk) with
              | error e => rw [hp] at h; simp at h
              | ok entries =>
                  rw [hp] at h
                  simp only [Except.ok.injEq] at h
                  subst h
                  simpa [IsShape] using hprops _ entries hp

/-- Bounded-rank workhorse: whenever union returns, it returns a well-formed
key tree. -/
theorem union_shape_aux : ∀ n, ∀ f s : JsonValue, sizeOf f < n →
    (∀ t, unionKeysHelper f s = .ok t → IsShape t = true) ∧
    (∀ props l, unionProps f s props = .ok l → IsShapeEntries l = true) := by
  intro n
  induction n with
  | zero => intro f s h; omega
  | succ n ih =>
      intro f s hn
      have hprops : ∀ props l, unionProps f s props = .ok l →
          IsShapeEntries l = true := by
        intro props
        induction props with
        | nil =>
            intro l h
            simp only [unionProps, Except.ok.injEq] at h
            subst h
            simp [IsShapeEntries]
        | cons p rest ihp =>
            intro l h
            simp only [unionProps] at h
            by_cases hc : (!isObject (getPropD f p) || !isObject (getPropD s p)) = true
            · rw [dif_pos hc] at h
              cases hrest : unionProps f s rest with
              | error e => rw [hrest] at h; simp at h
              | ok tl =>
                  rw [hrest] at h
                  simp only [Except.ok.injEq] at h
                  subst h
                  simp [IsShapeEntries, ihp tl hrest]
            · rw [dif_neg hc] at h
              cases hnode : unionKeysHelper (getPropD f p) (getPropD s p) with
              | error e => rw [hnode] at h; simp at h
              | ok node =>
                  rw [hnode] at h
                  cases hrest : unionProps f s rest with
                  | error e => rw [hrest] at h; simp at h
                  | ok tl =>
                      rw [hrest] at h
                      simp only [Except.ok.injEq] at h
                      subst h
                      have hobj : isObject (getPropD f p) = true := by
                        simp only [Bool.or_eq_true, Bool.not_eq_true', not_or,
                          Bool.not_eq_false] at hc
                        exact hc.1
                      have hflt : sizeOf (getPropD f p) < n := by
                        have := sizeOf_getPropD_lt f p hobj
                        omega
                      have hnodeShape :=
                        (ih (getPropD f p) (getPropD s p) hflt).1 node hnode
                      cases node with
                      | obj sub =>
                          simp only [IsShape] at hnodeShape
                          simp [IsShapeEntries, hnodeShape, ihp tl hrest]
                      | null => simp [IsShape] at hnodeShape
                      | bool b2 => simp [IsShape] at hnodeShape
                      | num m => simp [IsShape] at hnodeShape
                      | str s2 => simp [IsShape] at hnodeShape
                      | arr xs => simp [IsShape] at hnodeShape
      refine ⟨?_, hprops⟩
      intro t h
      cases hf : jsKeys f with
      | error e => simp only [unionKeysHelper, hf] at h; simp at h
      | ok fk =>
          cases hs : jsKeys s with
          | error e => simp only [unionKeysHelper, hf, hs] at h; simp at h
          | ok sk =>
              simp only [unionKeysHelper, hf, hs] at h
              cases hp : unionProps f s (setUnion fk sk) with
              | error e => rw [hp] at h; simp at h
              | ok entries =>
                  rw [hp] at h
                  simp only [Except.ok.injEq] at h
                  subst h
                  simpa [IsShape] using hprops _ entries hp

/-- The extraction loop over array elements never throws: it only recurses
into elements that are objects. -/
theorem ektElems_ok : ∀ xs : List JsonValue, ∀ i : Nat,
    ∃ l, ektElems i xs = .ok l := by
  intro xs
  induction xs with
  | nil => intro i; exact ⟨[], by simp only [ektElems]⟩
  | cons v rest ih =>
      intro i
      obtain ⟨tl, htl⟩ := ih (i + 1)
      by_cases hv : isObject v = true
      · cases v with
        | obj es' =>
            refine ⟨(toString i, .obj (specExtractEntries es')) :: tl, ?_⟩
            simp only [ektElems]
            rw [if_pos hv]
            rw [show enumerateKeyTreeHelper (.obj es') = ektEntries es' from by
              simp only [enumerateKeyTreeHelper], ektEntries_spec es', htl]
        | null => simp [isObject] at hv
        | bool b => simp [isObject] at hv
        | num m => simp [isObject] at hv
        | str s => simp [isObject] at hv
        | arr ys => simp [isObject] at hv
      · refine ⟨(toString i, .null) :: tl, ?_⟩
        simp only [ektElems]
        rw [if_neg hv, htl]

/-- In a well-formed key tree, every stored value is `null` or a nested
well-formed mapping. -/
theorem shape_lookup {es : List (String × JsonValue)} {k : String} {v : JsonValue}
    (hes : IsShapeEntries es = true) (h : List.lookup k es = some v) :
    v = .null ∨ ∃ tb, v = .obj tb ∧ IsShapeEntries tb = true := by
  induction es with
  | nil => simp [List.lookup] at h
  | cons e rest ih =>
      obtain ⟨k2, v2⟩ := e
      cases v2 with
      | null =>
          have hrest : IsShapeEntries rest = true := by
            simpa [IsShapeEntries] using hes
          by_cases hk : (k == k2) = true
          · simp only [List.lookup, hk, Option.some.injEq] at h
            subst h
            exact Or.inl rfl
          · simp only [List.lookup, hk] at h
            exact ih hrest h
      | obj es2 =>
          have hpair : IsShapeEntries es2 = true ∧ IsShapeEntries rest = true := by
            have := hes
            simp only [IsShapeEntries, Bool.and_eq_true] at this
            exact this
          by_cases hk : (k == k2) = true
          · simp only [List.lookup, hk, Option.some.injEq] at h
            subst h
            exact Or.inr ⟨es2, rfl, hpair.1⟩
          · simp only [List.lookup, hk] at h
            exact ih hpair.2 h
      | bool b => simp [IsShapeEntries] at hes
      | num m => simp [IsShapeEntries] at hes
      | str s => simp [IsShapeEntries] at hes
      | arr xs => simp [IsShapeEntries] at hes

/-- The success side of the amended intersection policy: whenever the
intersection of two key trees returns, the result holds exactly the common
keys, and per common key the node kind is decided by `first` alone — `first`'s
`Leaf` gives a `Leaf`, and `first`'s sub-tree gives the recursive intersection
with `second`'s sub-tree. -/
def InterSuccessPolicy (a b : List (String × JsonValue)) : Prop :=
  ∀ t, intersectKeysHelper (.obj a) (.obj b) = .ok t →
    ∃ l, t = .obj l ∧
      (∀ k, k ∈ l.map Prod.fst ↔ (k ∈ a.map Prod.fst ∧ k ∈ b.map Prod.fst)) ∧
      (∀ k, List.lookup k a = some .null → k ∈ b.map Prod.fst →
        List.lookup k l = some .null) ∧
      (∀ k ta, List.lookup k a = some (.obj ta) → k ∈ b.map Prod.fst →
        ∃ tb sub, List.lookup k b = some (.obj tb) ∧
          intersectKeysHelper (.obj ta) (.obj tb) = .ok (.obj sub) ∧
          List.lookup k l = some (.obj sub))

/-- The failure side of the amended intersection policy: a common key holding
a sub-tree in `first` but a `Leaf` in `second` makes the whole intersection
throw. -/
def InterMismatchFails (a b : List (String × JsonValue)) : Prop :=
  ∀ k ta, List.lookup k a = some (.obj ta) → List.lookup k b = some .null →
    ∃ e, intersectKeysHelper (.obj a) (.obj b) = .error e

/-- C2 (amended): for well-formed key trees, whenever `intersectKeys` returns
it returns exactly the claimed intersection — common keys only, node kind
decided by `first` (`Leaf` stays `Leaf`, sub-trees recurse into `second`'s
sub-tree) — but when a common key holds a sub-tree in `first` and a `Leaf` in
`second`, the operation throws a `TypeError` instead of recursing into an
empty mapping, so the claim's unconditional reading is false. -/
theorem claim_C2 (a b : List (String × JsonValue))
    (ha : IsShapeEntries a = true) (hb : IsShapeEntries b = true) :
    InterSuccessPolicy a b ∧ InterMismatchFails a b := by
  have hsuccess : InterSuccessPolicy a b := by
    intro t h
    obtain ⟨l, rfl, hp⟩ := interHelper_obj_ok_inv h
    refine ⟨l, rfl, ?_, ?_, ?_⟩
    · intro k
      rw [interProps_map_fst hp]
      exact mem_setIntersection
    · intro k hka hkb
      have hk : k ∈ setIntersection (a.map Prod.fst) (b.map Prod.fst) :=
        mem_setIntersection.mpr ⟨mem_keys_of_lookup hka, hkb⟩
      rcases interProps_lookup (nodup_setIntersection _ _) hp hk with
        ⟨_, hlook⟩ | ⟨hobj, _⟩
      · exact hlook
      · rw [not_isObject_of_lookup_null hka] at hobj
        cases hobj
    · intro k ta hta hkb
      have hk : k ∈ setIntersection (a.map Prod.fst) (b.map Prod.fst) :=
        mem_setIntersection.mpr ⟨mem_keys_of_lookup hta, hkb⟩
      rcases interProps_lookup (nodup_setIntersection _ _) hp hk with
        ⟨hobj, _⟩ | ⟨_, node, hnode, hlook⟩
      · rw [isObject_of_lookup_obj hta] at hobj
        cases hobj
      · have hga : getPropD (.obj a) k = .obj ta := by
          rw [getPropD_obj, hta]; rfl
        rw [hga] at hnode
        obtain ⟨vb, hvb⟩ := Option.isSome_iff_exists.mp (lookup_isSome_iff.mpr hkb)
        have hgb : getPropD (.obj b) k = vb := by
          rw [getPropD_obj, hvb]; rfl
        rw [hgb] at hnode
        rcases shape_lookup hb hvb with rfl | ⟨tb, rfl, _⟩
        · exfalso
          simp only [intersectKeysHelper, jsKeys_obj, jsKeys] at hnode
          exact absurd hnode (by simp)
        · obtain ⟨sub, rfl, _⟩ := interHelper_obj_ok_inv hnode
          exact ⟨tb, sub, hvb, hnode, hlook⟩
  refine ⟨hsuccess, ?_⟩
  intro k ta hta hbnull
  cases hres : intersectKeysHelper (.obj a) (.obj b) with
  | error e => exact ⟨e, rfl⟩
  | ok t =>
      obtain ⟨l, rfl, _, _, hobj⟩ := hsuccess t hres
      obtain ⟨tb, sub, htb, _, _⟩ := hobj k ta hta (mem_keys_of_lookup hbnull)
      rw [hbnull] at htb
      simp at htb

/-- C2 counterexample: two well-formed shape trees whose common key holds a
sub-tree in `first` and a `Leaf` in `second` make `intersectKeys` throw a
`TypeError` instead of returning a tree of their common keys. -/
theorem claim_C2_counterexample :
    intersectKeys (.obj [("x", .obj [])]) (.obj [("x", .null)]) =
      .error typeErrorMsg ∧
    IsShapeEntries [("x", JsonValue.obj [])] = true ∧
    IsShapeEntries [("x", JsonValue.null)] = true := by
  refine ⟨?_, by simp [IsShapeEntries], by simp [IsShapeEntries]⟩
  simp +decide [intersectKeys, intersectKeysHelper, interProps, jsKeys, setIntersection,
    firstDedup, getPropD, getProp, isObject, indexKeys, parseIndex, List.lookup]

/-- C2 witness: the amended policy instantiated at two concrete leaf-only
shape trees. -/
theorem claim_C2_witness :
    InterSuccessPolicy [("x", JsonValue.null)] [("x", JsonValue.null)] ∧
    InterMismatchFails [("x", JsonValue.null)] [("x", JsonValue.null)] :=
  claim_C2 [("x", JsonValue.null)] [("x", JsonValue.null)]
    (by simp [IsShapeEntries]) (by simp [IsShapeEntries])

/-- C1 counterexample: for `A = {x: {p: 1}}` and `B = {x: "not an object"}`,
intersecting the extracted shapes in the order
(`extractShape(A)`, `extractShape(B)`) throws a `TypeError` — the recursion
into B's `Leaf` (`null`) at key `x` enumerates the keys of `null` — rather
than yielding `{x: {}}`. -/
theorem claim_C1_counterexample :
    enumerateKeyTree (.obj [("x", .obj [("p", .num 1)])]) =
      .ok (.obj [("x", .obj [("p", .null)])]) ∧
    enumerateKeyTree (.obj [("x", .str "not an object")]) =
      .ok (.obj [("x", .null)]) ∧
    intersectKeys (.obj [("x", .obj [("p", .null)])]) (.obj [("x", .null)]) =
      .error typeErrorMsg := by
  refine ⟨?_, ?_, ?_⟩
  · simp +decide [enumerateKeyTree, enumerateKeyTreeHelper, ektEntries, isObject]
  · simp +decide [enumerateKeyTree, enumerateKeyTreeHelper, ektEntries, isObject]
  · simp +decide [intersectKeys, intersectKeysHelper, interProps, jsKeys,
      setIntersection, firstDedup, getPropD, getProp, isObject, indexKeys,
      parseIndex, List.lookup]

/-- C1 (amended): for `A = {x: {p: 1}}` and `B = {x: "not an object"}`,
intersecting the extracted shapes in the order
(`extractShape(A)`, `extractShape(B)`) throws a `TypeError` (the recursion
into B's `Leaf` enumerates the keys of `null` instead of treating it as an
empty mapping), while the order (`extractShape(B)`, `extractShape(A)`) yields
`{x: null}`; intersecting the raw documents — as the pipeline actually does —
yields `{x: {}}` in the order `(A, B)` because the recursion into the string
enumerates its character indices, none of which it shares with `{p: 1}`. -/
theorem claim_C1 :
    enumerateKeyTree (.obj [("x", .obj [("p", .num 1)])]) =
      .ok (.obj [("x", .obj [("p", .null)])]) ∧
    enumerateKeyTree (.obj [("x", .str "not an object")]) =
      .ok (.obj [("x", .null)]) ∧
    intersectKeys (.obj [("x", .obj [("p", .null)])]) (.obj [("x", .null)]) =
      .error typeErrorMsg ∧
    intersectKeys (.obj [("x", .null)]) (.obj [("x", .obj [("p", .null)])]) =
      .ok (.obj [("x", .null)]) ∧
    intersectKeys (.obj [("x", .obj [("p", .num 1)])])
      (.obj [("x", .str "not an object")]) = .ok (.obj [("x", .obj [])]) := by
  refine ⟨?_, ?_, ?_, ?_, ?_⟩
  · simp +decide [enumerateKeyTree, enumerateKeyTreeHelper, ektEntries, isObject]
  · simp +decide [enumerateKeyTree, enumerateKeyTreeHelper, ektEntries, isObject]
  · simp +decide [intersectKeys, intersectKeysHelper, interProps, jsKeys,
      setIntersection, firstDedup, getPropD, getProp, isObject, indexKeys,
      parseIndex, List.lookup]
  · simp +decide [intersectKeys, intersectKeysHelper, interProps, jsKeys,
      setIntersection, firstDedup, getPropD, getProp, isObject, indexKeys,
      parseIndex, List.lookup]
  · simp +decide [intersectKeys, intersectKeysHelper, interProps, jsKeys,
      setIntersection, firstDedup, getPropD, getProp, isObject, indexKeys,
      parseIndex, List.lookup]

/-- C3 counterexample: on the documents `A = {x: {p: 1}}`,
`B = {x: "not an object"}`, the reducer over raw parsed documents yields
`{x: {}}`, while the spec's left fold over the extracted shapes throws a
`TypeError`, so the two computations differ for the intersect operation. -/
theorem claim_C3_counterexample :
    findIntersectingKeys
      [.obj [("x", .obj [("p", .num 1)])], .obj [("x", .str "not an object")]] =
      .ok (.obj [("x", .obj [])]) ∧
    specReduceIntersectShapes
      [.obj [("x", .obj [("p", .num 1)])], .obj [("x", .str "not an object")]] =
      .error typeErrorMsg := by
  constructor
  · simp +decide [findIntersectingKeys, intersectFold, intersectKeys,
      intersectKeysHelper, interProps, jsKeys, setIntersection, firstDedup,
      getPropD, getProp, isObject, indexKeys, parseIndex, List.lookup]
  · simp +decide [specReduceIntersectShapes, specShapeIntersectFold,
      enumerateKeyTree, enumerateKeyTreeHelper, ektEntries, intersectKeys,
      intersectKeysHelper, interProps, jsKeys, setIntersection, firstDedup,
      getPropD, getProp, isObject, indexKeys, parseIndex, List.lookup]

/-- C3 (amended): the N-way reducer folds the raw parsed documents, not their
extracted shapes.  For the union operation on object documents the two
computations coincide (union commutes with shape extraction), but for the
intersect operation they differ: on `[{x: {p: 1}}, {x: "not an object"}]` the
reducer yields `{x: {}}` while the fold over extracted shapes throws. -/
theorem claim_C3 :
    (∀ docs : List JsonValue, (∀ d ∈ docs, isObject d = true) →
      findUnionKeys docs = specReduceUnionShapes docs) ∧
    findIntersectingKeys
      [.obj [("x", .obj [("p", .num 1)])], .obj [("x", .str "not an object")]] =
      .ok (.obj [("x", .obj [])]) ∧
    specReduceIntersectShapes
      [.obj [("x", .obj [("p", .num 1)])], .obj [("x", .str "not an object")]] =
      .error typeErrorMsg := by
  refine ⟨findUnionKeys_extract_shapes, ?_, ?_⟩
  · simp +decide [findIntersectingKeys, intersectFold, intersectKeys,
      intersectKeysHelper, interProps, jsKeys, setIntersection, firstDedup,
      getPropD, getProp, isObject, indexKeys, parseIndex, List.lookup]
  · simp +decide [specReduceIntersectShapes, specShapeIntersectFold,
      enumerateKeyTree, enumerateKeyTreeHelper, ektEntries, intersectKeys,
      intersectKeysHelper, interProps, jsKeys, setIntersection, firstDedup,
      getPropD, getProp, isObject, indexKeys, parseIndex, List.lookup]

/-- C3 witness: the union-refinement half of the amended claim instantiated
at two concrete object documents. -/
theorem claim_C3_witness :
    findUnionKeys [JsonValue.obj [("a", JsonValue.num 1)], JsonValue.obj [("b", JsonValue.num 2)]] =
      specReduceUnionShapes
        [JsonValue.obj [("a", JsonValue.num 1)], JsonValue.obj [("b", JsonValue.num 2)]] :=
  claim_C3.1 [JsonValue.obj [("a", JsonValue.num 1)], JsonValue.obj [("b", JsonValue.num 2)]]
    (by decide)

/-- C4: the union of two key trees holds every key present on either side;
a key maps to `null` unless both sides hold nested trees there, in which case
it maps to the recursive union of the two sub-trees; in particular the union
of the documents `{a: {n: 1}}` and `{b: 2}` is `{a: null, b: null}`. -/
theorem claim_C4 (a b : List (String × JsonValue)) :
    unionKeys (.obj a) (.obj b) = .ok (.obj (unionEntries a b)) ∧
    (∀ k, k ∈ (unionEntries a b).map Prod.fst ↔
      (k ∈ a.map Prod.fst ∨ k ∈ b.map Prod.fst)) ∧
    (∀ k, (k ∈ a.map Prod.fst ∨ k ∈ b.map Prod.fst) →
      (isObject (getPropD (.obj a) k) = false ∨
        isObject (getPropD (.obj b) k) = false) →
      List.lookup k (unionEntries a b) = some .null) ∧
    (∀ k ta tb, List.lookup k a = some (.obj ta) →
      List.lookup k b = some (.obj tb) →
      List.lookup k (unionEntries a b) = some (.obj (unionEntries ta tb))) ∧
    unionKeys (.obj [("a", .obj [("n", .num 1)])]) (.obj [("b", .num 2)]) =
      .ok (.obj [("a", .null), ("b", .null)]) := by
  refine ⟨unionKeysHelper_eq_unionEntries a b, fun k => mem_unionEntries_keys,
    fun k hk hno => unionEntries_lookup_null hk hno,
    fun k ta tb hta htb => unionEntries_lookup_obj hta htb, ?_⟩
  simp +decide [unionKeys, unionKeysHelper, unionProps, jsKeys, setUnion,
    firstDedup, getPropD, getProp, isObject, indexKeys, parseIndex, List.lookup]

/-- C4 witness: the characterisation instantiated at two concrete trees. -/
theorem claim_C4_witness :
    unionKeys (.obj [("a", JsonValue.null)]) (.obj []) =
      .ok (.obj (unionEntries [("a", JsonValue.null)] [])) :=
  (claim_C4 [("a", JsonValue.null)] []).1

/-- Fold results seeded by a union output are self-equivalent. -/
theorem foldlUnion_self_equiv : ∀ ds : List (List (String × JsonValue)),
    ∀ A B : List (String × JsonValue),
    EntriesEquiv (ds.foldl unionEntries (unionEntries A B))
      (ds.foldl unionEntries (unionEntries A B)) := by
  intro ds
  induction ds with
  | nil => intro A B; exact unionEntries_self_equiv A B
  | cons d t ih => intro A B; exact ih (unionEntries A B) d

/-- C5: union of key trees is commutative and associative up to structural
equality with key order disregarded, and therefore folding union over a
permuted sequence of documents from the same seed yields an equivalent
result. -/
theorem claim_C5 (A B C : List (String × JsonValue)) :
    unionKeys (.obj A) (.obj B) = .ok (.obj (unionEntries A B)) ∧
    EntriesEquiv (unionEntries A B) (unionEntries B A) ∧
    EntriesEquiv (unionEntries A (unionEntries B C))
      (unionEntries (unionEntries A B) C) ∧
    (∀ ds ds' : List (List (String × JsonValue)), List.Perm ds ds' →
      EntriesEquiv (ds.foldl unionEntries (unionEntries A B))
        (ds'.foldl unionEntries (unionEntries A B))) := by
  refine ⟨unionKeysHelper_eq_unionEntries A B, unionEntries_comm A B,
    unionEntries_assoc A B C, ?_⟩
  intro ds ds' hperm
  rcases unionFoldl_perm hperm (unionEntries A B) (unionEntries A B)
    (Or.inl rfl) with heq | hequiv
  · rw [heq]
    exact foldlUnion_self_equiv ds' A B
  · exact hequiv

/-- C5 witness: commutativity instantiated at concrete trees. -/
theorem claim_C5_witness :
    EntriesEquiv (unionEntries [("a", JsonValue.null)] [])
      (unionEntries [] [("a", JsonValue.null)]) :=
  (claim_C5 [("a", JsonValue.null)] [] []).2.1

/-- C6: on a JSON object, shape extraction maps each key with a non-nestable
value (array, string, number, boolean, or null) to a `Leaf` and each key with
an object value to the recursively extracted sub-shape; in particular
`extractShape({a: [1, 2, {b: 3}]})` is `{a: null}`. -/
theorem claim_C6 :
    (∀ es : List (String × JsonValue),
      enumerateKeyTree (.obj es) = .ok (.obj (specExtractEntries es))) ∧
    (∀ (k : String) (v : JsonValue) (rest : List (String × JsonValue)),
      specExtractEntries ((k, v) :: rest) =
        (k, specNode v) :: specExtractEntries rest) ∧
    (∀ v : JsonValue, isObject v = false → specNode v = .null) ∧
    (∀ es' : List (String × JsonValue),
      specNode (.obj es') = .obj (specExtractEntries es')) ∧
    enumerateKeyTree (.obj [("a", .arr [.num 1, .num 2, .obj [("b", .num 3)]])]) =
      .ok (.obj [("a", .null)]) := by
  refine ⟨enumerateKeyTree_obj, specExtractEntries_cons, ?_, ?_, ?_⟩
  · intro v hv
    cases v with
    | obj es => simp [isObject] at hv
    | null => simp [specNode]
    | bool b => simp [specNode]
    | num m => simp [specNode]
    | str s => simp [specNode]
    | arr xs => simp [specNode]
  · intro es'
    simp [specNode]
  · simp +decide [enumerateKeyTree, enumerateKeyTreeHelper, ektEntries, isObject]

/-- C6 witness: an array value records a `Leaf`. -/
theorem claim_C6_witness : specNode (JsonValue.arr [JsonValue.num 1]) = .null :=
  claim_C6.2.2.1 (JsonValue.arr [JsonValue.num 1]) (by decide)

/-- C7 counterexample: top-level shape extraction on the non-object `5`
silently returns the empty tree instead of failing with an explicit
`InvalidInput` error. -/
theorem claim_C7_counterexample : enumerateKeyTree (.num 5) = .ok (.obj []) := by
  simp [enumerateKeyTree, enumerateKeyTreeHelper]

/-- C7 (amended): top-level shape extraction performs no input validation: on
`null` it throws the platform `TypeError` raised by key enumeration, and on
any other non-object value it silently returns a tree — empty for numbers and
booleans, index-keyed leaves for strings, and an index-keyed tree for arrays —
rather than failing with an explicit `InvalidInput` error. -/
theorem claim_C7 :
    enumerateKeyTree .null = .error typeErrorMsg ∧
    (∀ n : Int, enumerateKeyTree (.num n) = .ok (.obj [])) ∧
    (∀ b : Bool, enumerateKeyTree (.bool b) = .ok (.obj [])) ∧
    (∀ s : String, enumerateKeyTree (.str s) =
      .ok (.obj ((indexKeys s.length).map fun k => (k, JsonValue.null)))) ∧
    (∀ xs : List JsonValue, ∃ t, enumerateKeyTree (.arr xs) = .ok t) := by
  refine ⟨?_, ?_, ?_, ?_, ?_⟩
  · simp [enumerateKeyTree, enumerateKeyTreeHelper]
  · intro n
    simp [enumerateKeyTree, enumerateKeyTreeHelper]
  · intro b
    simp [enumerateKeyTree, enumerateKeyTreeHelper]
  · intro s
    simp [enumerateKeyTree, enumerateKeyTreeHelper]
  · intro xs
    obtain ⟨l, hl⟩ := ektElems_ok xs 0
    exact ⟨.obj l, by simp [enumerateKeyTree, enumerateKeyTreeHelper, hl]⟩

/-- C8: the N-way reducers fail immediately on an empty document sequence,
for both operations, with the source's `Error('Array is empty.')`. -/
theorem claim_C8 :
    findIntersectingKeys [] = .error "Array is empty." ∧
    findUnionKeys [] = .error "Array is empty." :=
  ⟨rfl, rfl⟩

/-- C9: whenever shape extraction, intersection, or union returns, the result
is a well-formed key tree: an object each of whose keys maps to `null` or to
a nested well-formed mapping — never to an array, string, number, boolean, or
a value taken from the input documents. -/
theorem claim_C9 :
    (∀ v t, enumerateKeyTree v = .ok t → IsShape t = true) ∧
    (∀ a b t, intersectKeys a b = .ok t → IsShape t = true) ∧
    (∀ a b t, unionKeys a b = .ok t → IsShape t = true) := by
  refine ⟨enumerateKeyTree_shape, ?_, ?_⟩
  · intro a b t h
    exact (inter_shape_aux (sizeOf a + 1) a b (Nat.lt_succ_self _)).1 t h
  · intro a b t h
    exact (union_shape_aux (sizeOf a + 1) a b (Nat.lt_succ_self _)).1 t h

/-- C9 witness: the shape predicate holds of a concrete extraction result. -/
theorem claim_C9_witness : IsShape (JsonValue.obj []) = true :=
  claim_C9.1 (JsonValue.num 0) (JsonValue.obj [])
    (by simp [enumerateKeyTree, enumerateKeyTreeHelper])

/-- C10: when `first`'s node at a common key is a nested tree while `second`'s
value there is a non-null non-object, the recursion enumerates that value's
own keys — a string contributes its character indices — so
`intersectKeys({x: {"0": 1}}, {x: "ab"})` yields `{x: {"0": null}}`, not
`{x: {}}`. -/
theorem claim_C10 :
    jsKeys (.str "ab") = .ok ["0", "1"] ∧
    intersectKeys (.obj [("x", .obj [("0", .num 1)])]) (.obj [("x", .str "ab")]) =
      .ok (.obj [("x", .obj [("0", .null)])]) ∧
    intersectKeys (.obj [("x", .obj [("0", .num 1)])]) (.obj [("x", .str "ab")]) ≠
      .ok (.obj [("x", .obj [])]) := by
  have heval : intersectKeys (.obj [("x", .obj [("0", .num 1)])])
      (.obj [("x", .str "ab")]) = .ok (.obj [("x", .obj [("0", .null)])]) := by
    simp +decide [intersectKeys, intersectKeysHelper, interProps, jsKeys,
      setIntersection, firstDedup, getPropD, getProp, isObject, indexKeys,
      parseIndex, List.lookup]
  refine ⟨?_, heval, ?_⟩
  · simp +decide [jsKeys, indexKeys]
  · rw [heval]
    simp
